import Mathlib

/-!
Verification of the bazel-metrics repository-metrics pipeline.

The definitions below are a shallow embedding of the Go sources:
the tree scanner and manifest rule counter (`analyzer/pkg/scanner`),
the metrics calculator (`analyzer/pkg/metrics`) and the benchmark
orchestrator (`analyzer/pkg/benchmark`).  Filesystem walks are modelled
as a list of visited file entries, subprocess execution as an
environment mapping commands to outcomes, and Go `float64` percentage
arithmetic as exact rational arithmetic.
-/

/-! ## Character and string helpers

The Go code compares filenames with `==`, `strings.HasPrefix` and
`strings.HasSuffix`, and splits paths on `/`.  We model these over
`List Char` so that all definitions compute by structural recursion. -/

/-- Whitespace class of Go's RE2 `\s`, namely `[\t\n\f\r ]`. -/
def isSpaceChar (c : Char) : Bool :=
  c == ' ' || c == '\t' || c == '\n' || c == '\x0c' || c == '\r'

/-- `startsWithChars pat l` is true when `pat` is an initial segment of `l`
(model of `strings.HasPrefix`). -/
def startsWithChars : List Char → List Char → Bool
  | [], _ => true
  | _ :: _, [] => false
  | a :: as, b :: bs => a == b && startsWithChars as bs

/-- Model of `strings.HasSuffix` over character lists. -/
def endsWithChars (suf l : List Char) : Bool :=
  startsWithChars suf.reverse l.reverse

/-- `strHasPre s pre` models `strings.HasPrefix(s, pre)`. -/
def strHasPre (s pre : String) : Bool :=
  startsWithChars pre.toList s.toList

/-- `strHasSuf s suf` models `strings.HasSuffix(s, suf)`. -/
def strHasSuf (s suf : String) : Bool :=
  endsWithChars suf.toList s.toList

/-- Model of `strings.Split` on a single separator character. -/
def splitOnChar (sep : Char) : List Char → List (List Char)
  | [] => [[]]
  | c :: cs =>
    let r := splitOnChar sep cs
    if c == sep then [] :: r
    else
      match r with
      | h :: t => (c :: h) :: t
      | [] => [[c]]

/-- Join path components with `/` (model of `strings.Join(parts, "/")`). -/
def joinSegs : List (List Char) → List Char
  | [] => []
  | [s] => s
  | s :: rest => s ++ '/' :: joinSegs rest

/-- Association-list lookup (model of Go map read). -/
def alGet {κ β : Type} [BEq κ] (k : κ) : List (κ × β) → Option β
  | [] => none
  | (k2, v) :: rest => if k2 == k then some v else alGet k rest

/-- Association-list write (model of Go map write): replace the existing
binding in place, or append a fresh one. -/
def alPut {κ β : Type} [BEq κ] (k : κ) (v : β) : List (κ × β) → List (κ × β)
  | [] => [(k, v)]
  | (k2, v2) :: rest =>
    if k2 == k then (k, v) :: rest else (k2, v2) :: alPut k v rest

namespace scanner

/-! ## Data model (`analyzer/pkg/scanner`) -/

/-- Go struct `scanner.Package`: one package directory with its metadata. -/
structure Package where
  path : String
  relPath : String
  hasBuildFile : Bool := false
  hasTestFiles : Bool := false
  goFileCount : Nat := 0
  testFileCount : Nat := 0
  goTestTargets : Nat := 0
  goLibraryTargets : Nat := 0
  goBinaryTargets : Nat := 0
deriving DecidableEq, Repr

/-- Go struct `scanner.ScanResult`: the complete scan results. -/
structure ScanResult where
  repoPath : String
  packages : List Package
  totalBUILDs : Nat := 0
  totalGoFiles : Nat := 0
  totalTests : Nat := 0
deriving DecidableEq, Repr

/-- Go struct `scanner.Scanner`.  The three compiled regular expressions are
fixed (`go_test`, `go_library`, `go_binary`), so only the repository path and
the skip set are data. -/
structure Scanner where
  repoPath : String
  skipDirs : List String
deriving DecidableEq, Repr

/-- Go `scanner.NewScanner`. -/
def NewScanner (repoPath : String) : Scanner :=
  { repoPath := repoPath
    skipDirs := [".git", "bazel-bin", "bazel-out", "bazel-testlogs",
                 "node_modules", ".cache", "vendor"] }

/-! ## Manifest rule counter

`parseBuildFile` counts the matches of the RE2 pattern
`(?m)^\s*KW\s*\(` in the file text, for each of the three rule keywords.
With `(?m)`, `^` anchors at the start of the text and after every
newline; `\s` may match newlines, so a single match can span lines.
`tryMatch` attempts the (deterministic) pattern at one anchor,
returning the remainder of the text after the match; `countMatches`
scans the text left to right, attempting the pattern at every anchor
and resuming after the end of each match, exactly as
`FindAllString(text, -1)` does for this pattern. -/

/-- Attempt `\s*KW\s*\(` at an anchor position; on success return the text
following the matched region. -/
def tryMatch (kw : List Char) (cs : List Char) : Option (List Char) :=
  if startsWithChars kw (cs.dropWhile isSpaceChar) then
    match ((cs.dropWhile isSpaceChar).drop kw.length).dropWhile isSpaceChar with
    | '(' :: r => some r
    | _ => none
  else none

theorem dropWhile_len_le (p : α → Bool) (l : List α) :
    (l.dropWhile p).length ≤ l.length := by
  induction l with
  | nil => simp
  | cons a l ih =>
    by_cases h : p a = true
    · simp [List.dropWhile_cons, h]; omega
    · simp [List.dropWhile_cons, h]


theorem tryMatch_length {kw cs r : List Char} (h : tryMatch kw cs = some r) :
    r.length < cs.length := by
  unfold tryMatch at h
  split at h
  · split at h
    on_goal 1 =>
      rename_i heq
      simp only [Option.some.injEq] at h
      subst h
      have h1 := dropWhile_len_le isSpaceChar ((cs.dropWhile isSpaceChar).drop kw.length)
      rw [heq] at h1
      have h2 : ((cs.dropWhile isSpaceChar).drop kw.length).length ≤
          (cs.dropWhile isSpaceChar).length := by
        rw [List.length_drop]; omega
      have h3 := dropWhile_len_le isSpaceChar cs
      simp only [List.length_cons] at h1
      omega
    all_goals simp_all
  · simp_all

/-- Fuel-driven scanner for the matches of `(?m)^\s*KW\s*\(`.  Each step
either advances one character or consumes a whole match, so the text length
is a sufficient fuel (`countMatchesGo_fuel` below); the fuel only serves to
make the recursion structural. -/
def countMatchesGo (kw : List Char) : Nat → List Char → Bool → Nat
  | 0, _, _ => 0
  | _ + 1, [], _ => 0
  | fuel + 1, c :: cs, anchor =>
    match anchor, tryMatch kw (c :: cs) with
    | true, some r => 1 + countMatchesGo kw fuel r false
    | true, none => countMatchesGo kw fuel cs (c == '\n')
    | false, _ => countMatchesGo kw fuel cs (c == '\n')

/-- Count the non-overlapping matches of `(?m)^\s*KW\s*\(` in `cs`,
scanning left to right.  `anchor` records whether the current position is a
valid `^` position (start of text or just after a newline).  This is the
behaviour of `FindAllString(text, -1)` for the three rule patterns. -/
def countMatches (kw cs : List Char) (anchor : Bool) : Nat :=
  countMatchesGo kw cs.length cs anchor

theorem countMatchesGo_nil (kw : List Char) (fuel : Nat) (a : Bool) :
    countMatchesGo kw fuel [] a = 0 := by
  cases fuel <;> rfl

theorem countMatchesGo_fuel (kw : List Char) : ∀ (f1 f2 : Nat) (cs : List Char)
    (a : Bool), cs.length ≤ f1 → cs.length ≤ f2 →
    countMatchesGo kw f1 cs a = countMatchesGo kw f2 cs a := by
  intro f1
  induction f1 with
  | zero =>
    intro f2 cs a h1 h2
    have : cs = [] := by
      cases cs with
      | nil => rfl
      | cons c cs => simp at h1
    subst this
    rw [countMatchesGo_nil, countMatchesGo_nil]
  | succ f ih =>
    intro f2 cs a h1 h2
    cases cs with
    | nil => rw [countMatchesGo_nil, countMatchesGo_nil]
    | cons c cs =>
      cases f2 with
      | zero => simp at h2
      | succ f2 =>
        simp only [List.length_cons] at h1 h2
        cases a with
        | false =>
          show countMatchesGo kw f cs (c == '\n') =
            countMatchesGo kw f2 cs (c == '\n')
          exact ih f2 cs (c == '\n') (by omega) (by omega)
        | true =>
          simp only [countMatchesGo]
          cases hm : tryMatch kw (c :: cs) with
          | some r =>
            have hr := tryMatch_length hm
            simp only [List.length_cons] at hr
            show 1 + countMatchesGo kw f r false = 1 + countMatchesGo kw f2 r false
            rw [ih f2 r false (by omega) (by omega)]
          | none =>
            show countMatchesGo kw f cs (c == '\n') =
              countMatchesGo kw f2 cs (c == '\n')
            exact ih f2 cs (c == '\n') (by omega) (by omega)

theorem countMatches_nil (kw : List Char) (a : Bool) :
    countMatches kw [] a = 0 := rfl

theorem countMatches_cons_false (kw : List Char) (c : Char) (cs : List Char) :
    countMatches kw (c :: cs) false = countMatches kw cs (c == '\n') := by
  show countMatchesGo kw (cs.length + 1) (c :: cs) false = _
  simp only [countMatchesGo]
  rfl

theorem countMatches_cons_none (kw : List Char) (c : Char) (cs : List Char)
    (hm : tryMatch kw (c :: cs) = none) :
    countMatches kw (c :: cs) true = countMatches kw cs (c == '\n') := by
  show countMatchesGo kw (cs.length + 1) (c :: cs) true = _
  simp only [countMatchesGo, hm]
  rfl

theorem countMatches_cons_some (kw : List Char) (c : Char) (cs r : List Char)
    (hm : tryMatch kw (c :: cs) = some r) :
    countMatches kw (c :: cs) true = 1 + countMatches kw r false := by
  have hr := tryMatch_length hm
  simp only [List.length_cons] at hr
  show countMatchesGo kw (cs.length + 1) (c :: cs) true = _
  simp only [countMatchesGo, hm]
  rw [countMatchesGo_fuel kw cs.length r.length r false (by omega) (by omega)]
  rfl

/-- The text assembled by `parseBuildFile`: every scanned line followed by a
newline (`content.WriteString(scanner.Text()); content.WriteString("\n")`). -/
def buildText : List String → List Char
  | [] => []
  | l :: ls => l.toList ++ '\n' :: buildText ls

/-- Go struct `buildTargets`. -/
structure buildTargets where
  goTests : Nat := 0
  goLibs : Nat := 0
  goBins : Nat := 0
deriving DecidableEq, Repr

/-- Keyword of the `go_test` rule regex. -/
def kwTest : List Char := "go_test".toList

/-- Keyword of the `go_library` rule regex. -/
def kwLib : List Char := "go_library".toList

/-- Keyword of the `go_binary` rule regex. -/
def kwBin : List Char := "go_binary".toList

/-- Go `Scanner.parseBuildFile`, given the lines of the manifest file:
count the matches of each of the three rule patterns in the assembled text. -/
def parseBuildLines (lines : List String) : buildTargets :=
  let text := buildText lines
  { goTests := countMatches kwTest text true
    goLibs := countMatches kwLib text true
    goBins := countMatches kwBin text true }

/-! ## Tree walk (`Scanner.Scan`)

The filesystem snapshot is a list of file entries in walk order; each
entry carries the path components of its containing directory (relative
to the scan root) and its base name.  `content` holds the lines of the
file when it can be opened, `none` when reading it fails
(`parseBuildFile` then leaves the rule counts at zero).

`filepath.Walk` prunes a directory (returns `filepath.SkipDir`) when its
base name is hidden, in the skip set, or carries the `bazel-` output
marker; a file is therefore visited exactly when no component of its
directory path matches the exclusion test. -/

/-- One file of the filesystem snapshot. -/
structure FSFile where
  dirParts : List String
  name : String
  content : Option (List String) := none
deriving DecidableEq, Repr

/-- The directory-exclusion test of `Scanner.Scan`
(`strings.HasPrefix(base, ".") || s.skipDirs[base] ||
strings.HasPrefix(base, "bazel-")`). -/
def excludedDir (s : Scanner) (base : String) : Bool :=
  strHasPre base "." || s.skipDirs.contains base || strHasPre base "bazel-"

/-- A file is visited iff no ancestor directory of it is pruned. -/
def visitedFile (s : Scanner) (f : FSFile) : Bool :=
  f.dirParts.all (fun c => !excludedDir s c)

/-- `filepath.Rel(s.repoPath, dir)`: `"."` for the root itself, otherwise the
components joined with `/`. -/
def relDirOf (dirParts : List String) : String :=
  match dirParts with
  | [] => "."
  | p :: rest => joinSegs ((p :: rest).map String.toList) |> String.mk

/-- The absolute directory path used as the package-map key and as
`Package.Path`. -/
def absDirOf (repoPath : String) (dirParts : List String) : String :=
  match dirParts with
  | [] => repoPath
  | p :: rest =>
    repoPath ++ "/" ++ (joinSegs ((p :: rest).map String.toList) |> String.mk)

/-- Mutable state of the walk closure in `Scanner.Scan`: the package map and
the three running totals of the `ScanResult`. -/
structure ScanState where
  packageMap : List (List String × Package)
  totalBUILDs : Nat
  totalGoFiles : Nat
  totalTests : Nat
deriving DecidableEq, Repr

/-- The manifest-filename test of the walk closure
(`filename == "BUILD" || filename == "BUILD.bazel"`). -/
def isBuildName (n : String) : Bool :=
  n == "BUILD" || n == "BUILD.bazel"

/-- The Go-source test of the walk closure (`strings.HasSuffix(filename,
".go") && !strings.HasSuffix(filename, "_test.go")`). -/
def isGoSrcName (n : String) : Bool :=
  strHasSuf n ".go" && !strHasSuf n "_test.go"

/-- The Go-test test of the walk closure
(`strings.HasSuffix(filename, "_test.go")`). -/
def isTestName (n : String) : Bool :=
  strHasSuf n "_test.go"

/-- Manifest branch of the walk closure: mark `hasBuildFile` and store the
parsed rule counts; a file that cannot be read leaves the counts alone. -/
def buildAdjust (f : FSFile) (pkg : Package) : Package :=
  if isBuildName f.name then
    let pkgB := { pkg with hasBuildFile := true }
    match f.content with
    | some lines =>
      let targets := parseBuildLines lines
      { pkgB with
        goTestTargets := targets.goTests
        goLibraryTargets := targets.goLibs
        goBinaryTargets := targets.goBins }
    | none => pkgB
  else pkg

/-- Go-source branch of the walk closure. -/
def goAdjust (f : FSFile) (pkg : Package) : Package :=
  if isGoSrcName f.name then { pkg with goFileCount := pkg.goFileCount + 1 }
  else pkg

/-- Go-test branch of the walk closure. -/
def testAdjust (f : FSFile) (pkg : Package) : Package :=
  if isTestName f.name then
    { pkg with hasTestFiles := true, testFileCount := pkg.testFileCount + 1 }
  else pkg

/-- Get-or-create of the walk closure: the Package for the file's directory,
or a fresh record keyed by that directory. -/
def pkg0Of (s : Scanner) (st : ScanState) (f : FSFile) : Package :=
  match alGet f.dirParts st.packageMap with
  | some p => p
  | none =>
    { path := absDirOf s.repoPath f.dirParts, relPath := relDirOf f.dirParts }

/-- Body of the walk closure for one visited file: get-or-create the Package
for the containing directory, classify the file (manifest / Go source / Go
test), and update the package and the running totals. -/
def processFile (s : Scanner) (st : ScanState) (f : FSFile) : ScanState :=
  { packageMap :=
      alPut f.dirParts
        (testAdjust f (goAdjust f (buildAdjust f (pkg0Of s st f))))
        st.packageMap
    totalBUILDs :=
      if isBuildName f.name then st.totalBUILDs + 1 else st.totalBUILDs
    totalGoFiles :=
      if isGoSrcName f.name then st.totalGoFiles + 1 else st.totalGoFiles
    totalTests :=
      if isTestName f.name then st.totalTests + 1 else st.totalTests }

/-- The walk phase of `Scanner.Scan`: fold the closure over the visited
files of the snapshot. -/
def scanWalk (s : Scanner) (snap : List FSFile) : ScanState :=
  snap.foldl
    (fun st f => if visitedFile s f then processFile s st f else st)
    { packageMap := [], totalBUILDs := 0, totalGoFiles := 0, totalTests := 0 }

/-- Go `Scanner.Scan`: walk the snapshot, then keep only the packages with at
least one Go source or test file. -/
def Scan (s : Scanner) (snap : List FSFile) : ScanResult :=
  let st := scanWalk s snap
  { repoPath := s.repoPath
    packages := (st.packageMap.map Prod.snd).filter
      (fun p => p.goFileCount > 0 || p.testFileCount > 0)
    totalBUILDs := st.totalBUILDs
    totalGoFiles := st.totalGoFiles
    totalTests := st.totalTests }

end scanner

namespace metrics

/-! ## Metrics calculator (`analyzer/pkg/metrics`)

Percentages are Go `float64` values obtained by exact integer division
followed by `* 100`; we model them with rational numbers, which captures
the choice of numerator and denominator and the division-by-zero guards
exactly (rounding of the binary floating-point representation is not
modelled). -/

/-- Go struct `metrics.Summary`. -/
structure Summary where
  bazelizationPct : ℚ := 0
  testCoveragePct : ℚ := 0
  bazelizedTestsPct : ℚ := 0
  totalPackages : Nat := 0
  totalBuildFiles : Nat := 0
  totalTestFiles : Nat := 0
  totalGoFiles : Nat := 0
  packagesWithBuild : Nat := 0
  packagesWithTests : Nat := 0
  totalGoTestTargets : Nat := 0
deriving DecidableEq, Repr

/-- Go struct `metrics.DirectoryMetrics`. -/
structure DirectoryMetrics where
  name : String
  totalPackages : Nat := 0
  bazelizedPackages : Nat := 0
  packagesWithTests : Nat := 0
  bazelizationPct : ℚ := 0
  testCoveragePct : ℚ := 0
deriving DecidableEq, Repr

/-- Go struct `metrics.PackageInfo`. -/
structure PackageInfo where
  path : String
  hasBuildFile : Bool
  hasTestFiles : Bool
  testFileCount : Nat
  goTestTargetCount : Nat
  goFileCount : Nat
deriving DecidableEq, Repr

/-- Go struct `metrics.PackageBenchmark` (`int64` milliseconds). -/
structure PackageBenchmark where
  path : String
  goTestMs : Int
  bazelTestColdMs : Int
  bazelTestWarmMs : Int
deriving DecidableEq, Repr

/-- Go struct `metrics.SpeedReport`. -/
structure SpeedReport where
  packages : List PackageBenchmark
deriving DecidableEq, Repr

/-- Go struct `metrics.Report`.  The `speedComparison` field is optional
(`omitempty`). -/
structure Report where
  timestamp : String
  repoPath : String
  summary : Summary
  directoryBreakdown : List DirectoryMetrics
  packages : List PackageInfo
  speedComparison : Option SpeedReport := none
deriving DecidableEq, Repr

/-- Go struct `metrics.Calculator`. -/
structure Calculator where
  scanResult : scanner.ScanResult
deriving DecidableEq, Repr

/-- Go `metrics.NewCalculator`. -/
def NewCalculator (result : scanner.ScanResult) : Calculator :=
  { scanResult := result }

/-- Lexical path cleaning, the Unix behaviour of `filepath.Clean`:
resolve `.` and empty components, cancel `..` against preceding
components (absolute paths drop leading `..`, relative paths keep it). -/
def cleanSegsLoop (rooted : Bool) : List (List Char) → List (List Char) →
    List (List Char)
  | acc, [] => acc.reverse
  | acc, c :: rest =>
    if c = [] || c = ['.'] then cleanSegsLoop rooted acc rest
    else if c = ['.', '.'] then
      match acc with
      | [] =>
        if rooted then cleanSegsLoop rooted [] rest
        else cleanSegsLoop rooted [['.', '.']] rest
      | a :: acc2 =>
        if a = ['.', '.'] then cleanSegsLoop rooted (c :: a :: acc2) rest
        else cleanSegsLoop rooted acc2 rest
    else cleanSegsLoop rooted (c :: acc) rest

/-- Model of `filepath.Clean` on Unix. -/
def cleanPath (p : String) : String :=
  if p = "" then "."
  else
    let cs := p.toList
    let rooted : Bool :=
      match cs with
      | '/' :: _ => true
      | _ => false
    let segs := cleanSegsLoop rooted [] (splitOnChar '/' cs)
    let out := joinSegs segs
    if rooted then String.mk ('/' :: out)
    else if out = [] then "." else String.mk out

/-- Go `metrics.getTopLevelDir`: clean the path and return its first
`/`-separated component. -/
def getTopLevelDir (path : String) : String :=
  let cleaned := cleanPath path
  let parts := splitOnChar '/' cleaned.toList
  match parts with
  | p :: _ => String.mk p
  | [] => ""

/-- The grouping label used by `calculateDirectoryBreakdown`: the top-level
directory, with the root cases mapped to the sentinel `"(root)"`. -/
def dirLabel (relPath : String) : String :=
  let topDir := getTopLevelDir relPath
  if topDir = "" || topDir = "." then "(root)" else topDir

/-- The per-package counter updates of the grouping loop in
`calculateDirectoryBreakdown`. -/
def bumpTotals (pkg : scanner.Package) (dm : DirectoryMetrics) :
    DirectoryMetrics :=
  let dm1 := { dm with totalPackages := dm.totalPackages + 1 }
  let dm2 :=
    if pkg.hasBuildFile then
      { dm1 with bazelizedPackages := dm1.bazelizedPackages + 1 }
    else dm1
  if pkg.hasTestFiles then
    { dm2 with packagesWithTests := dm2.packagesWithTests + 1 }
  else dm2

/-- One step of the grouping loop in `calculateDirectoryBreakdown`. -/
def breakdownStep (m : List (String × DirectoryMetrics))
    (pkg : scanner.Package) : List (String × DirectoryMetrics) :=
  let topDir := dirLabel pkg.relPath
  let dm0 :=
    match alGet topDir m with
    | some dm => dm
    | none => { name := topDir }
  alPut topDir (bumpTotals pkg dm0) m

/-- Per-group percentage computation of `calculateDirectoryBreakdown`. -/
def breakdownPcts (dm : DirectoryMetrics) : DirectoryMetrics :=
  if dm.totalPackages > 0 then
    { dm with
      bazelizationPct :=
        (dm.bazelizedPackages : ℚ) / (dm.totalPackages : ℚ) * 100
      testCoveragePct :=
        (dm.packagesWithTests : ℚ) / (dm.totalPackages : ℚ) * 100 }
  else dm

/-- Descending insertion by `totalPackages`, modelling the final
`sort.Slice(result, func(i, j) { return result[i].TotalPackages >
result[j].TotalPackages })`. -/
def insertByTotalDesc (d : DirectoryMetrics) : List DirectoryMetrics →
    List DirectoryMetrics
  | [] => [d]
  | x :: xs =>
    if d.totalPackages ≤ x.totalPackages then x :: insertByTotalDesc d xs
    else d :: x :: xs

/-- Sort the breakdown rows descending by `totalPackages`. -/
def sortByTotalDesc : List DirectoryMetrics → List DirectoryMetrics
  | [] => []
  | x :: xs => insertByTotalDesc x (sortByTotalDesc xs)

/-- Go `Calculator.calculateDirectoryBreakdown`. -/
def calculateDirectoryBreakdown (c : Calculator) : List DirectoryMetrics :=
  let dirMap := c.scanResult.packages.foldl breakdownStep []
  let result := (dirMap.map Prod.snd).map breakdownPcts
  sortByTotalDesc result

/-- One step of the summary loop in `Calculator.Calculate`: counters for
packages with a build file, packages with tests, total `go_test` targets, and
the projected `PackageInfo` rows. -/
def summaryStep (acc : Nat × Nat × Nat × List PackageInfo)
    (pkg : scanner.Package) : Nat × Nat × Nat × List PackageInfo :=
  let (b, t, g, infos) := acc
  (b + (if pkg.hasBuildFile then 1 else 0),
   t + (if pkg.hasTestFiles then 1 else 0),
   g + pkg.goTestTargets,
   infos ++ [{ path := pkg.relPath
               hasBuildFile := pkg.hasBuildFile
               hasTestFiles := pkg.hasTestFiles
               testFileCount := pkg.testFileCount
               goTestTargetCount := pkg.goTestTargets
               goFileCount := pkg.goFileCount }])

/-- One step of the bazelized-tests loop in `Calculator.Calculate`. -/
def bazelizedTestsStep (n : Nat) (pkg : scanner.Package) : Nat :=
  if pkg.hasTestFiles && pkg.goTestTargets > 0 then n + 1 else n

/-- Go `Calculator.Calculate`.  `ts` stands for the wall-clock timestamp
(`time.Now().UTC().Format(time.RFC3339)`), passed in as a parameter. -/
def Calculate (ts : String) (c : Calculator) : Report :=
  let (packagesWithBuild, packagesWithTests, totalGoTestTargets, pkgInfos) :=
    c.scanResult.packages.foldl summaryStep (0, 0, 0, [])
  let totalPackages := c.scanResult.packages.length
  let summary0 : Summary :=
    { totalPackages := totalPackages
      totalBuildFiles := c.scanResult.totalBUILDs
      totalTestFiles := c.scanResult.totalTests
      totalGoFiles := c.scanResult.totalGoFiles
      packagesWithBuild := packagesWithBuild
      packagesWithTests := packagesWithTests
      totalGoTestTargets := totalGoTestTargets }
  let summary1 :=
    if totalPackages > 0 then
      { summary0 with
        bazelizationPct :=
          (packagesWithBuild : ℚ) / (totalPackages : ℚ) * 100
        testCoveragePct :=
          (packagesWithTests : ℚ) / (totalPackages : ℚ) * 100 }
    else summary0
  let packagesWithBazelizedTests :=
    c.scanResult.packages.foldl bazelizedTestsStep 0
  let summary2 :=
    if packagesWithTests > 0 then
      { summary1 with
        bazelizedTestsPct :=
          (packagesWithBazelizedTests : ℚ) / (packagesWithTests : ℚ) * 100 }
    else summary1
  { timestamp := ts
    repoPath := c.scanResult.repoPath
    summary := summary2
    directoryBreakdown := calculateDirectoryBreakdown c
    packages := pkgInfos
    speedComparison := none }

/-- Go `Report.SetSpeedComparison`. -/
def SetSpeedComparison (r : Report) (speed : SpeedReport) : Report :=
  { r with speedComparison := some speed }

end metrics

namespace benchmark

/-! ## Benchmark orchestrator (`analyzer/pkg/benchmark`)

Subprocess execution (`exec.Command(...).Run()`) is modelled by an
environment that assigns to each command invocation an outcome: the
elapsed wall-clock milliseconds and an optional error.  `cmd.Run()`
returns an error both when the command cannot be started at all
(`launchFailure`, e.g. a missing toolchain) and when it starts and exits
non-zero (`exitNonZero`); the Go code only ever inspects `err != nil`,
which is `Option.isSome` here.  The two `bazel test` invocations of one
package are distinguished by call site (cold after the cache clean, warm
immediately after). -/

/-- Why `cmd.Run()` reported an error. -/
inductive ExecFailure
  | launchFailure
  | exitNonZero
deriving DecidableEq, Repr

/-- Outcome of one subprocess invocation. -/
structure ExecOutcome where
  elapsedMs : Int
  failure : Option ExecFailure := none
deriving DecidableEq, Repr

/-- The command-execution environment of one benchmark run.  `goTest` is
keyed by working directory and import path, the two `bazel test`
invocations by the target label. -/
structure ExecEnv where
  goTest : String → String → ExecOutcome
  bazelTestCold : String → ExecOutcome
  bazelTestWarm : String → ExecOutcome

/-- Go struct `benchmark.Runner`. -/
structure Runner where
  repoPath : String
  scanResult : scanner.ScanResult
  maxTests : Int
deriving DecidableEq, Repr

/-- Go `benchmark.NewRunner`: a non-positive `maxTests` is replaced by the
default of 5. -/
def NewRunner (repoPath : String) (result : scanner.ScanResult)
    (maxTests : Int) : Runner :=
  { repoPath := repoPath
    scanResult := result
    maxTests := if maxTests ≤ 0 then 5 else maxTests }

/-- Candidate filter of `selectCandidates`: test files present, at least one
`go_test` target, and a test-file count in `(0, 20]`. -/
def eligiblePkg (pkg : scanner.Package) : Bool :=
  pkg.hasTestFiles && decide (0 < pkg.goTestTargets) &&
    decide (0 < pkg.testFileCount) && decide (pkg.testFileCount ≤ 20)

/-- One round of the inner loop of the selection sort: find the minimum of
`m :: xs` under `key` (the first minimal element) and swap it to the front;
the returned list is `m :: xs` with the minimum removed and `m` put at the
minimum's former position, exactly the effect of
`candidates[i], candidates[minIdx] = candidates[minIdx], candidates[i]`. -/
def selMinSwap {α : Type} (key : α → Nat) : List α → α → α × List α
  | [], m => (m, [])
  | x :: xs, m =>
    if key x < key m then
      ((selMinSwap key xs x).1, m :: (selMinSwap key xs x).2)
    else
      ((selMinSwap key xs m).1, x :: (selMinSwap key xs m).2)

theorem selMinSwap_len {α : Type} (key : α → Nat) :
    ∀ (xs : List α) (m : α), (selMinSwap key xs m).2.length = xs.length := by
  intro xs
  induction xs with
  | nil => intro m; rfl
  | cons x xs ih =>
    intro m
    by_cases h : key x < key m
    · simp only [selMinSwap, if_pos h, List.length_cons, ih]
    · simp only [selMinSwap, if_neg h, List.length_cons, ih]

/-- Fuel-driven version of the bounded selection sort; each round passes a
list one element shorter, so the list length is a sufficient fuel.  The fuel
only serves to make the recursion structural. -/
def limitedSelSortGo {α : Type} (key : α → Nat) : Nat → Int → List α →
    List α
  | 0, _, l => l
  | _ + 1, _, [] => []
  | _ + 1, _, [x] => [x]
  | fuel + 1, budget, x :: y :: xs =>
    if budget ≤ 0 then x :: y :: xs
    else
      let p := selMinSwap key (y :: xs) x
      p.1 :: limitedSelSortGo key fuel (budget - 1) p.2

/-- The bounded selection sort of `selectCandidates`: the outer loop runs
while `i < len(candidates)-1 && i < r.maxTests`, so each round sorts one
more front slot until the budget or the list is exhausted. -/
def limitedSelSort {α : Type} (key : α → Nat) (budget : Int) (l : List α) :
    List α :=
  limitedSelSortGo key l.length budget l

theorem limitedSelSortGo_fuel {α : Type} (key : α → Nat) :
    ∀ (f1 f2 : Nat) (b : Int) (l : List α), l.length ≤ f1 → l.length ≤ f2 →
    limitedSelSortGo key f1 b l = limitedSelSortGo key f2 b l := by
  intro f1
  induction f1 with
  | zero =>
    intro f2 b l h1 h2
    interval_cases hl : l.length
    · have : l = [] := List.length_eq_zero.mp hl
      subst this
      cases f2 <;> rfl
  | succ f ih =>
    intro f2 b l h1 h2
    match l with
    | [] => cases f2 <;> rfl
    | [x] =>
      match f2 with
      | 0 => simp at h2
      | f2 + 1 => rfl
    | x :: y :: xs =>
      match f2 with
      | 0 => simp at h2
      | f2 + 1 =>
        show (if b ≤ 0 then x :: y :: xs else _) =
          (if b ≤ 0 then x :: y :: xs else _)
        by_cases hb : b ≤ 0
        · rw [if_pos hb, if_pos hb]
        · rw [if_neg hb, if_neg hb]
          have hlen := selMinSwap_len key (y :: xs) x
          simp only [List.length_cons] at h1 h2 hlen
          show (selMinSwap key (y :: xs) x).1 ::
              limitedSelSortGo key f (b - 1) (selMinSwap key (y :: xs) x).2 =
            (selMinSwap key (y :: xs) x).1 ::
              limitedSelSortGo key f2 (b - 1) (selMinSwap key (y :: xs) x).2
          rw [ih f2 (b - 1) (selMinSwap key (y :: xs) x).2 (by omega)
            (by omega)]

theorem limitedSelSort_nil {α : Type} (key : α → Nat) (b : Int) :
    limitedSelSort key b ([] : List α) = [] := rfl

theorem limitedSelSort_single {α : Type} (key : α → Nat) (b : Int) (x : α) :
    limitedSelSort key b [x] = [x] := rfl

theorem limitedSelSort_stop {α : Type} (key : α → Nat) {b : Int}
    (hb : b ≤ 0) (x y : α) (xs : List α) :
    limitedSelSort key b (x :: y :: xs) = x :: y :: xs := by
  show (if b ≤ 0 then x :: y :: xs else _) = _
  rw [if_pos hb]

theorem limitedSelSort_step {α : Type} (key : α → Nat) {b : Int}
    (hb : ¬b ≤ 0) (x y : α) (xs : List α) :
    limitedSelSort key b (x :: y :: xs) =
      (selMinSwap key (y :: xs) x).1 ::
        limitedSelSort key (b - 1) (selMinSwap key (y :: xs) x).2 := by
  show (if b ≤ 0 then x :: y :: xs else _) = _
  rw [if_neg hb]
  have hlen := selMinSwap_len key (y :: xs) x
  simp only [List.length_cons] at hlen
  show (selMinSwap key (y :: xs) x).1 ::
      limitedSelSortGo key (y :: xs).length (b - 1)
        (selMinSwap key (y :: xs) x).2 = _
  rw [limitedSelSortGo_fuel key (y :: xs).length
    (selMinSwap key (y :: xs) x).2.length (b - 1)
    (selMinSwap key (y :: xs) x).2 (by simp [hlen]) (by omega)]
  rfl

/-- The selection key: `TestFileCount`. -/
def testCountKey (pkg : scanner.Package) : Nat :=
  pkg.testFileCount

/-- Go `Runner.selectCandidates`: filter the eligible packages in slice
order, then run the bounded selection sort. -/
def selectCandidates (r : Runner) : List scanner.Package :=
  let candidates :=
    r.scanResult.packages.foldl
      (fun acc pkg => if eligiblePkg pkg then acc ++ [pkg] else acc) []
  limitedSelSort testCountKey r.maxTests candidates

/-- Model of `strings.TrimPrefix(s, pre)` for a prefix already known to be
present: drop the prefix length. -/
def strDropPre (s pre : String) : String :=
  String.mk (s.toList.drop pre.toList.length)

/-- Go `Runner.runGoTest`: build the import path (with the `go/` submodule
special case), run `go test -count=1`, and return the elapsed time.  Both
the failure and the success branch return a `nil` error ("Tests may fail but
we still want timing"), so the error component is always `none`. -/
def runGoTest (env : ExecEnv) (r : Runner) (pkg : scanner.Package) :
    Int × Option String :=
  let pkgDir := pkg.path
  let importPath := "./" ++ pkg.relPath
  let pair :=
    if strHasPre pkg.relPath "go/" then
      (r.repoPath ++ "/go", "./" ++ strDropPre pkg.relPath "go/")
    else (pkgDir, importPath)
  let o := env.goTest pair.1 pair.2
  let elapsed := o.elapsedMs
  if o.failure.isSome then (elapsed, none)
  else (elapsed, none)

/-- Go `Runner.runBazelTest`: run `bazel test //<relPath>:all` and return
the elapsed time together with the error of `cmd.Run()`. -/
def runBazelTest (invoke : String → ExecOutcome) (pkg : scanner.Package) :
    Int × Option ExecFailure :=
  let target := "//" ++ pkg.relPath ++ ":all"
  let o := invoke target
  (o.elapsedMs, o.failure)

/-- Go `Runner.benchmarkPackage`: `none` models the `(nil, error)` return.
The cold and warm bazel errors are logged but the timings kept. -/
def benchmarkPackage (env : ExecEnv) (r : Runner) (pkg : scanner.Package) :
    Option metrics.PackageBenchmark :=
  let goRes := runGoTest env r pkg
  if goRes.2.isSome then none
  else
    let coldRes := runBazelTest env.bazelTestCold pkg
    let warmRes := runBazelTest env.bazelTestWarm pkg
    some { path := pkg.relPath
           goTestMs := goRes.1
           bazelTestColdMs := coldRes.1
           bazelTestWarmMs := warmRes.1 }

/-- One iteration of the benchmark loop in `Run`: append the row, or keep
the accumulator unchanged when `benchmarkPackage` reported a failure. -/
def benchStep (env : ExecEnv) (r : Runner)
    (acc : List metrics.PackageBenchmark) (pkg : scanner.Package) :
    List metrics.PackageBenchmark :=
  match benchmarkPackage env r pkg with
  | none => acc
  | some b => acc ++ [b]

/-- The candidate list that `Run` iterates over: the selected candidates,
truncated to `maxTests` when longer. -/
def runCandidates (r : Runner) : List scanner.Package :=
  let candidates := selectCandidates r
  if (candidates.length : Int) > r.maxTests then
    candidates.take r.maxTests.toNat
  else candidates

/-- Go `Runner.Run`: benchmark each selected candidate in order; a `none`
result from `benchmarkPackage` is skipped with a warning. -/
def Run (env : ExecEnv) (r : Runner) : metrics.SpeedReport :=
  let candidates := selectCandidates r
  if candidates.length = 0 then { packages := [] }
  else
    let candidates :=
      if (candidates.length : Int) > r.maxTests then
        candidates.take r.maxTests.toNat
      else candidates
    { packages := candidates.foldl (benchStep env r) [] }

end benchmark

/-! ## State-threaded variants for the no-mutation contracts

`Calculator.Calculate` and `Runner.Run` hold their `ScanResult` by
pointer; to make the absence of mutation a statable property, the
variants below thread the receiver explicitly through every loop, so
that any write through the pointer would have to show up as a state
change.  `CalculateSt`/`RunSt` return the final state next to the
result. -/

theorem foldl_pair {α β γ : Type} (f : β → γ → α → β) :
    ∀ (l : List α) (b : β) (s : γ),
    (l.foldl (fun p a => (f p.1 p.2 a, p.2)) (b, s)) =
      (l.foldl (fun b2 a => f b2 s a) b, s) := by
  intro l
  induction l with
  | nil => intro b s; rfl
  | cons x xs ih => intro b s; exact ih (f b s x) s

namespace metrics

/-- State-threaded `Calculator.Calculate`. -/
def CalculateSt (ts : String) (c0 : Calculator) : Report × Calculator :=
  let s1 := c0.scanResult.packages.foldl
    (fun (p : (Nat × Nat × Nat × List PackageInfo) × Calculator) pkg =>
      (summaryStep p.1 pkg, p.2)) ((0, 0, 0, []), c0)
  let c1 := s1.2
  let packagesWithBuild := s1.1.1
  let packagesWithTests := s1.1.2.1
  let totalGoTestTargets := s1.1.2.2.1
  let pkgInfos := s1.1.2.2.2
  let totalPackages := c1.scanResult.packages.length
  let summary0 : Summary :=
    { totalPackages := totalPackages
      totalBuildFiles := c1.scanResult.totalBUILDs
      totalTestFiles := c1.scanResult.totalTests
      totalGoFiles := c1.scanResult.totalGoFiles
      packagesWithBuild := packagesWithBuild
      packagesWithTests := packagesWithTests
      totalGoTestTargets := totalGoTestTargets }
  let summary1 :=
    if totalPackages > 0 then
      { summary0 with
        bazelizationPct :=
          (packagesWithBuild : ℚ) / (totalPackages : ℚ) * 100
        testCoveragePct :=
          (packagesWithTests : ℚ) / (totalPackages : ℚ) * 100 }
    else summary0
  let s2 := c1.scanResult.packages.foldl
    (fun (p : Nat × Calculator) pkg => (bazelizedTestsStep p.1 pkg, p.2))
    (0, c1)
  let c2 := s2.2
  let summary2 :=
    if packagesWithTests > 0 then
      { summary1 with
        bazelizedTestsPct :=
          (s2.1 : ℚ) / (packagesWithTests : ℚ) * 100 }
    else summary1
  let s3 := c2.scanResult.packages.foldl
    (fun (p : List (String × DirectoryMetrics) × Calculator) pkg =>
      (breakdownStep p.1 pkg, p.2)) ([], c2)
  let c3 := s3.2
  let breakdown := sortByTotalDesc ((s3.1.map Prod.snd).map breakdownPcts)
  ({ timestamp := ts
     repoPath := c3.scanResult.repoPath
     summary := summary2
     directoryBreakdown := breakdown
     packages := pkgInfos
     speedComparison := none }, c3)

end metrics

namespace benchmark

/-- State-threaded `Runner.selectCandidates`: the filter loop threads the
runner, and the selection sort permutes the freshly built candidate list,
not the state. -/
def selectCandidatesSt (r0 : Runner) : List scanner.Package × Runner :=
  let s1 := r0.scanResult.packages.foldl
    (fun (p : List scanner.Package × Runner) pkg =>
      (if eligiblePkg pkg then p.1 ++ [pkg] else p.1, p.2)) ([], r0)
  (limitedSelSort testCountKey s1.2.maxTests s1.1, s1.2)

/-- State-threaded `Runner.Run`. -/
def RunSt (env : ExecEnv) (r0 : Runner) : metrics.SpeedReport × Runner :=
  let s1 := selectCandidatesSt r0
  let candidates := s1.1
  let r1 := s1.2
  if candidates.length = 0 then ({ packages := [] }, r1)
  else
    let candidates :=
      if (candidates.length : Int) > r1.maxTests then
        candidates.take r1.maxTests.toNat
      else candidates
    let s2 := candidates.foldl
      (fun (p : List metrics.PackageBenchmark × Runner) pkg =>
        (benchStep env p.2 p.1 pkg, p.2)) ([], r1)
    ({ packages := s2.1 }, s2.2)

end benchmark

/-! ## Counting lemmas for the summary loops -/

theorem summaryFold_build (l : List scanner.Package) :
    ∀ (b t g : Nat) (infos : List metrics.PackageInfo),
    (l.foldl metrics.summaryStep (b, t, g, infos)).1 =
      b + l.countP (fun p => p.hasBuildFile) := by
  induction l with
  | nil => intro b t g infos; simp
  | cons x xs ih =>
    intro b t g infos
    simp only [List.foldl_cons, metrics.summaryStep, List.countP_cons]
    rw [ih]
    by_cases h : x.hasBuildFile
    · simp [h]; omega
    · simp [h]

theorem summaryFold_tests (l : List scanner.Package) :
    ∀ (b t g : Nat) (infos : List metrics.PackageInfo),
    (l.foldl metrics.summaryStep (b, t, g, infos)).2.1 =
      t + l.countP (fun p => p.hasTestFiles) := by
  induction l with
  | nil => intro b t g infos; simp
  | cons x xs ih =>
    intro b t g infos
    simp only [List.foldl_cons, metrics.summaryStep, List.countP_cons]
    rw [ih]
    by_cases h : x.hasTestFiles
    · simp [h]; omega
    · simp [h]

theorem bazelizedFold_count (l : List scanner.Package) :
    ∀ (n : Nat), l.foldl metrics.bazelizedTestsStep n =
      n + l.countP (fun p => p.hasTestFiles && decide (0 < p.goTestTargets)) := by
  induction l with
  | nil => intro n; simp
  | cons x xs ih =>
    intro n
    simp only [List.foldl_cons, metrics.bazelizedTestsStep, List.countP_cons]
    rw [ih]
    by_cases h : (x.hasTestFiles && decide (0 < x.goTestTargets)) = true
    · have h2 : (x.hasTestFiles && decide (x.goTestTargets > 0)) = true := h
      rw [if_pos h2]
      simp [h]
      omega
    · have h2 : ¬(x.hasTestFiles && decide (x.goTestTargets > 0)) = true := h
      rw [if_neg h2]
      simp [h]

/-! ## Claims -/

/-- C10: for every non-positive maximum passed to `NewRunner`, the runner is
the very runner built with maximum 5, so all its behaviour (including the
number of rows `Run` can return) is that of maximum 5. -/
theorem C10_nonpositive_max_defaults_to_five (repoPath : String)
    (result : scanner.ScanResult) (m : Int) (h : m ≤ 0) :
    benchmark.NewRunner repoPath result m =
      benchmark.NewRunner repoPath result 5 := by
  simp [benchmark.NewRunner, if_pos h]

/-- Six eligible one-test packages used to exercise the default cap. -/
def sixPkgs : List scanner.Package :=
  [{ path := "/r/p1", relPath := "p1", hasTestFiles := true,
     testFileCount := 1, goTestTargets := 1 },
   { path := "/r/p2", relPath := "p2", hasTestFiles := true,
     testFileCount := 1, goTestTargets := 1 },
   { path := "/r/p3", relPath := "p3", hasTestFiles := true,
     testFileCount := 1, goTestTargets := 1 },
   { path := "/r/p4", relPath := "p4", hasTestFiles := true,
     testFileCount := 1, goTestTargets := 1 },
   { path := "/r/p5", relPath := "p5", hasTestFiles := true,
     testFileCount := 1, goTestTargets := 1 },
   { path := "/r/p6", relPath := "p6", hasTestFiles := true,
     testFileCount := 1, goTestTargets := 1 }]

/-- A scan result with six eligible candidates. -/
def srSix : scanner.ScanResult := { repoPath := "/r", packages := sixPkgs }

/-- An execution environment where every command succeeds instantly. -/
def envOk : benchmark.ExecEnv :=
  { goTest := fun _ _ => { elapsedMs := 1 }
    bazelTestCold := fun _ => { elapsedMs := 2 }
    bazelTestWarm := fun _ => { elapsedMs := 3 } }

/-- C10 witness: `NewRunner` with maximum 0 equals `NewRunner` with
maximum 5, and against six eligible candidates such a runner returns
5 benchmark rows. -/
theorem C10_witness :
    benchmark.NewRunner "/r" srSix 0 = benchmark.NewRunner "/r" srSix 5 ∧
      (benchmark.Run envOk (benchmark.NewRunner "/r" srSix 0)).packages.length
        = 5 :=
  ⟨C10_nonpositive_max_defaults_to_five "/r" srSix 0 (by decide), by rfl⟩

/-- The single candidate package of the launch-failure scenario. -/
def pkgLaunch : scanner.Package :=
  { path := "/repo/a", relPath := "a", hasTestFiles := true,
    testFileCount := 1, goTestTargets := 1 }

/-- Scan result holding the single candidate. -/
def srLaunch : scanner.ScanResult :=
  { repoPath := "/repo", packages := [pkgLaunch] }

/-- Environment in which the `go test` command cannot even be launched. -/
def envLaunchFail : benchmark.ExecEnv :=
  { goTest := fun _ _ =>
      { elapsedMs := 100, failure := some .launchFailure }
    bazelTestCold := fun _ => { elapsedMs := 200 }
    bazelTestWarm := fun _ => { elapsedMs := 50 } }

/-- C1: contrary to the claim, a candidate whose native-test command fails
to launch is NOT excluded: `runGoTest` returns a nil error in both of its
branches, so `benchmarkPackage` never reports a failure and `Run` emits a
normal `PackageBenchmark` row (with the elapsed time of the failed launch
attempt) for the candidate. -/
theorem C1_launch_failure_row_still_emitted :
    (benchmark.Run envLaunchFail
        (benchmark.NewRunner "/repo" srLaunch 5)).packages =
      [{ path := "a", goTestMs := 100, bazelTestColdMs := 200,
         bazelTestWarmMs := 50 }] := by
  rfl

/-- C5: the three summary percentages are computed from their own
denominators — bazelization = packages with a build manifest over all
packages, test coverage = packages with tests over all packages, bazelized
tests = packages with tests and a positive test-rule count over packages
with tests — each times 100, and each defined as 0 when its denominator
is 0. -/
theorem C5_summary_percentages (ts : String) (c : metrics.Calculator) :
    (metrics.Calculate ts c).summary.bazelizationPct =
      (if c.scanResult.packages.length = 0 then 0 else
        ((c.scanResult.packages.countP (fun p => p.hasBuildFile) : ℚ) /
          (c.scanResult.packages.length : ℚ)) * 100) ∧
    (metrics.Calculate ts c).summary.testCoveragePct =
      (if c.scanResult.packages.length = 0 then 0 else
        ((c.scanResult.packages.countP (fun p => p.hasTestFiles) : ℚ) /
          (c.scanResult.packages.length : ℚ)) * 100) ∧
    (metrics.Calculate ts c).summary.bazelizedTestsPct =
      (if c.scanResult.packages.countP (fun p => p.hasTestFiles) = 0 then 0
       else
        ((c.scanResult.packages.countP
            (fun p => p.hasTestFiles && decide (0 < p.goTestTargets)) : ℚ) /
          (c.scanResult.packages.countP (fun p => p.hasTestFiles) : ℚ))
          * 100) := by
  have hb := summaryFold_build c.scanResult.packages 0 0 0 []
  have ht := summaryFold_tests c.scanResult.packages 0 0 0 []
  have hz := bazelizedFold_count c.scanResult.packages 0
  simp only [Nat.zero_add] at hb ht hz
  by_cases hl : c.scanResult.packages.length = 0
  · have hlt : ¬c.scanResult.packages.length > 0 := by omega
    have htz : c.scanResult.packages.countP (fun p => p.hasTestFiles) = 0 := by
      have := List.countP_le_length (l := c.scanResult.packages)
        (p := fun p => p.hasTestFiles)
      omega
    have htz2 : ¬(c.scanResult.packages.foldl metrics.summaryStep
        (0, 0, 0, [])).2.1 > 0 := by
      rw [ht, htz]
      omega
    have hnil : c.scanResult.packages = [] := List.length_eq_zero.mp hl
    refine ⟨?_, ?_, ?_⟩ <;>
      simp [metrics.Calculate, hnil, metrics.bazelizedTestsStep]
  · have hlt : c.scanResult.packages.length > 0 := by omega
    have hne : c.scanResult.packages ≠ [] := by
      intro h
      rw [h] at hl
      simp at hl
    by_cases htz : c.scanResult.packages.countP (fun p => p.hasTestFiles) = 0
    · have hex : ¬∃ a ∈ c.scanResult.packages, a.hasTestFiles = true := by
        rw [List.countP_eq_zero] at htz
        simpa using htz
      refine ⟨?_, ?_, ?_⟩ <;>
        simp [metrics.Calculate, hb, ht, hz, hex, hne, hlt, htz]
    · have hex : ∃ a ∈ c.scanResult.packages, a.hasTestFiles = true := by
        have h0 : 0 < List.countP (fun p => p.hasTestFiles)
            c.scanResult.packages := by omega
        simpa using List.countP_pos_iff.mp h0
      refine ⟨?_, ?_, ?_⟩ <;>
        simp [metrics.Calculate, hb, ht, hz, hex, hne, hlt, htz]

namespace benchmark

/-! ## Correctness of the bounded selection sort -/

theorem selMinSwap_perm {α : Type} (key : α → Nat) :
    ∀ (xs : List α) (m : α),
    List.Perm ((selMinSwap key xs m).1 :: (selMinSwap key xs m).2)
      (m :: xs) := by
  intro xs
  induction xs with
  | nil => intro m; exact List.Perm.refl _
  | cons x xs ih =>
    intro m
    by_cases h : key x < key m
    · simp only [selMinSwap, if_pos h]
      exact (List.Perm.swap m (selMinSwap key xs x).1 _).trans ((ih x).cons m)
    · simp only [selMinSwap, if_neg h]
      exact (List.Perm.swap x (selMinSwap key xs m).1 _).trans
        (((ih m).cons x).trans (List.Perm.swap m x xs))

theorem selMinSwap_mem {α : Type} (key : α → Nat) (xs : List α) (m z : α)
    (hz : z ∈ (selMinSwap key xs m).1 :: (selMinSwap key xs m).2) :
    z ∈ m :: xs :=
  (selMinSwap_perm key xs m).mem_iff.mp hz

theorem selMinSwap_min {α : Type} (key : α → Nat) :
    ∀ (xs : List α) (m : α), ∀ y ∈ m :: xs,
      key (selMinSwap key xs m).1 ≤ key y := by
  intro xs
  induction xs with
  | nil =>
    intro m y hy
    have : y = m := by simpa using hy
    subst this
    exact Nat.le_refl _
  | cons x xs ih =>
    intro m y hy
    by_cases h : key x < key m
    · simp only [selMinSwap, if_pos h]
      rcases List.mem_cons.mp hy with h1 | h1
      · subst h1
        have h2 := ih x x (List.mem_cons_self x xs)
        omega
      · exact ih x y h1
    · simp only [selMinSwap, if_neg h]
      rcases List.mem_cons.mp hy with h1 | h1
      · subst h1
        exact ih y y (List.mem_cons_self y xs)
      · rcases List.mem_cons.mp h1 with h2 | h2
        · subst h2
          have h3 := ih m m (List.mem_cons_self m xs)
          omega
        · exact ih m y (List.mem_cons_of_mem m h2)

theorem limitedSelSort_perm {α : Type} (key : α → Nat) :
    ∀ (l : List α) (b : Int), List.Perm (limitedSelSort key b l) l
  | [], b => by rw [limitedSelSort_nil]
  | [x], b => by rw [limitedSelSort_single]
  | x :: y :: xs, b => by
    by_cases hb : b ≤ 0
    · rw [limitedSelSort_stop key hb]
    · rw [limitedSelSort_step key hb]
      have hp := limitedSelSort_perm key (selMinSwap key (y :: xs) x).2 (b - 1)
      exact ((hp.cons _).trans (selMinSwap_perm key (y :: xs) x))
termination_by l _ => l.length
decreasing_by
  simp [selMinSwap_len]

theorem limitedSelSort_front {α : Type} (key : α → Nat) :
    ∀ (l : List α) (b : Int),
    ((limitedSelSort key b l).take b.toNat).Pairwise
      (fun a c => key a ≤ key c) ∧
    (∀ a ∈ (limitedSelSort key b l).take b.toNat,
      ∀ c ∈ (limitedSelSort key b l).drop b.toNat, key a ≤ key c)
  | [], b => by
    rw [limitedSelSort_nil]
    simp
  | [x], b => by
    rw [limitedSelSort_single]
    match hn : b.toNat with
    | 0 => simp
    | n + 1 =>
      refine ⟨?_, ?_⟩
      · have ht : List.take (n + 1) [x] = [x] := by simp
        rw [ht]
        exact List.pairwise_singleton _ _
      · intro a _ c hc
        have hd : List.drop (n + 1) [x] = [] := by
          simp
        rw [hd] at hc
        simp at hc
  | x :: y :: xs, b => by
    by_cases hb : b ≤ 0
    · rw [limitedSelSort_stop key hb]
      have h0 : b.toNat = 0 := by omega
      rw [h0]
      simp
    · rw [limitedSelSort_step key hb]
      have h1 : b.toNat = (b - 1).toNat + 1 := by omega
      rw [h1]
      have ih := limitedSelSort_front key (selMinSwap key (y :: xs) x).2 (b - 1)
      have hperm := limitedSelSort_perm key (selMinSwap key (y :: xs) x).2 (b - 1)
      have hmin : ∀ z ∈ limitedSelSort key (b - 1) (selMinSwap key (y :: xs) x).2,
          key (selMinSwap key (y :: xs) x).1 ≤ key z := by
        intro z hz
        exact selMinSwap_min key (y :: xs) x z
          (selMinSwap_mem key (y :: xs) x z
            (List.mem_cons_of_mem _ (hperm.mem_iff.mp hz)))
      simp only [List.take_succ_cons, List.drop_succ_cons]
      refine ⟨?_, ?_⟩
      · rw [List.pairwise_cons]
        refine ⟨?_, ih.1⟩
        intro z hz
        exact hmin z (List.mem_of_mem_take hz)
      · intro a ha c hc
        rcases List.mem_cons.mp ha with h2 | h2
        · subst h2
          exact hmin c (List.mem_of_mem_drop hc)
        · exact ih.2 a h2 c hc
termination_by l _ => l.length
decreasing_by
  all_goals simp [selMinSwap_len]

end benchmark

namespace benchmark

/-- The front slots of the bounded selection sort carry exactly the smallest
keys in ascending order: mapping the key over the first `budget` slots gives
the first `budget` entries of the fully sorted key list. -/
theorem limitedSelSort_take_map {α : Type} (key : α → Nat) (b : Int)
    (l : List α) :
    ((limitedSelSort key b l).take b.toNat).map key =
      (List.insertionSort (· ≤ ·) (l.map key)).take b.toNat := by
  have hfront := limitedSelSort_front key l b
  have hperm := limitedSelSort_perm key l b
  have hsorted_t :
      ((((limitedSelSort key b l).take b.toNat).map key)).Sorted (· ≤ ·) := by
    rw [List.Sorted, List.pairwise_map]
    exact hfront.1
  have hsorted_b :
      (List.insertionSort (· ≤ ·)
        (((limitedSelSort key b l).drop b.toNat).map key)).Sorted
          (· ≤ ·) :=
    List.sorted_insertionSort _ _
  have hcross : ∀ a ∈ ((limitedSelSort key b l).take b.toNat).map key,
      ∀ c ∈ List.insertionSort (· ≤ ·)
        (((limitedSelSort key b l).drop b.toNat).map key), a ≤ c := by
    intro a ha c hc
    rcases List.mem_map.mp ha with ⟨a0, ha0, rfl⟩
    have hc2 := (List.perm_insertionSort (· ≤ ·)
      (((limitedSelSort key b l).drop b.toNat).map key)).mem_iff.mp hc
    rcases List.mem_map.mp hc2 with ⟨c0, hc0, rfl⟩
    exact hfront.2 a0 ha0 c0 hc0
  have hsorted_all :
      (((limitedSelSort key b l).take b.toNat).map key ++
        List.insertionSort (· ≤ ·)
          (((limitedSelSort key b l).drop b.toNat).map key)).Sorted
        (· ≤ ·) := by
    rw [List.Sorted, List.pairwise_append]
    exact ⟨hsorted_t, hsorted_b, hcross⟩
  have happend :
      List.Perm
        (((limitedSelSort key b l).take b.toNat).map key ++
          List.insertionSort (· ≤ ·)
            (((limitedSelSort key b l).drop b.toNat).map key))
        (l.map key) := by
    have h1 := List.Perm.append_left
      (((limitedSelSort key b l).take b.toNat).map key)
      (List.perm_insertionSort (· ≤ ·)
        (((limitedSelSort key b l).drop b.toNat).map key))
    have h2 : ((limitedSelSort key b l).take b.toNat).map key ++
        ((limitedSelSort key b l).drop b.toNat).map key =
        (limitedSelSort key b l).map key := by
      rw [← List.map_append, List.take_append_drop]
    exact h1.trans (h2 ▸ hperm.map key)
  have heq : List.insertionSort (· ≤ ·) (l.map key) =
      ((limitedSelSort key b l).take b.toNat).map key ++
        List.insertionSort (· ≤ ·)
          (((limitedSelSort key b l).drop b.toNat).map key) :=
    List.eq_of_perm_of_sorted
      ((List.perm_insertionSort _ _).trans happend.symm)
      (List.sorted_insertionSort _ _) hsorted_all
  rw [heq]
  by_cases hlen : (limitedSelSort key b l).length ≤ b.toNat
  · have ht : (limitedSelSort key b l).take b.toNat = limitedSelSort key b l :=
      List.take_of_length_le hlen
    have hd : (limitedSelSort key b l).drop b.toNat = [] := by
      rw [List.drop_eq_nil_iff]
      omega
    rw [ht, hd]
    have hmaplen : (((limitedSelSort key b l)).map key).length ≤ b.toNat := by
      rw [List.length_map]
      exact hlen
    simp [List.take_of_length_le hmaplen]
  · have ht : (((limitedSelSort key b l).take b.toNat).map key).length
        = b.toNat := by
      rw [List.length_map, List.length_take]
      omega
    exact (List.take_left' ht).symm

end benchmark

namespace benchmark

theorem foldl_filter_append {α : Type} (p : α → Bool) :
    ∀ (l acc : List α),
    l.foldl (fun acc x => if p x then acc ++ [x] else acc) acc =
      acc ++ l.filter p := by
  intro l
  induction l with
  | nil => intro acc; simp
  | cons x xs ih =>
    intro acc
    simp only [List.foldl_cons, List.filter_cons]
    by_cases h : p x
    · rw [if_pos h, if_pos h, ih]
      simp
    · rw [if_neg h, if_neg h, ih]

/-- `selectCandidates` is the bounded selection sort of the eligible
packages, taken in slice order. -/
theorem selectCandidates_eq (r : Runner) :
    selectCandidates r =
      limitedSelSort testCountKey r.maxTests
        (r.scanResult.packages.filter eligiblePkg) := by
  show limitedSelSort testCountKey r.maxTests
      (r.scanResult.packages.foldl
        (fun acc pkg => if eligiblePkg pkg then acc ++ [pkg] else acc) []) = _
  rw [foldl_filter_append]
  rfl

/-- `Run` folds `benchmarkPackage` over exactly the `runCandidates` list. -/
theorem Run_eq_fold (env : ExecEnv) (r : Runner) :
    (Run env r).packages =
      (runCandidates r).foldl (benchStep env r) [] := by
  show (if (selectCandidates r).length = 0 then
      ({ packages := [] } : metrics.SpeedReport)
    else _).packages = _
  by_cases h : (selectCandidates r).length = 0
  · rw [if_pos h]
    have hnil : selectCandidates r = [] := List.length_eq_zero.mp h
    show ([] : List metrics.PackageBenchmark) = _
    rw [runCandidates]
    rw [hnil]
    by_cases h2 : ((0 : Int) > r.maxTests)
    · simp [h2]
    · simp [h2]
  · rw [if_neg h]
    rfl

theorem benchFold_len (env : ExecEnv) (r : Runner) :
    ∀ (l : List scanner.Package) (acc : List metrics.PackageBenchmark),
    (l.foldl (benchStep env r) acc).length ≤ acc.length + l.length := by
  intro l
  induction l with
  | nil => intro acc; simp
  | cons x xs ih =>
    intro acc
    simp only [List.foldl_cons, benchStep]
    cases benchmarkPackage env r x with
    | none =>
      have := ih acc
      simp only [List.length_cons]
      omega
    | some b =>
      have := ih (acc ++ [b])
      simp only [List.length_append, List.length_cons, List.length_nil] at this ⊢
      omega

end benchmark

namespace benchmark

/-- The candidate list handed to the benchmark loop never exceeds the
runner's (positive) maximum. -/
theorem runCandidates_len_le (r : Runner) (h : 0 < r.maxTests) :
    (runCandidates r).length ≤ r.maxTests.toNat := by
  rw [runCandidates]
  by_cases hgt : ((selectCandidates r).length : Int) > r.maxTests
  · rw [if_pos hgt]
    rw [List.length_take]
    omega
  · rw [if_neg hgt]
    omega

/-- Every candidate handed to the benchmark loop passes the eligibility
filter. -/
theorem runCandidates_mem_eligible (r : Runner) :
    ∀ p ∈ runCandidates r, eligiblePkg p = true := by
  intro p hp
  have hp2 : p ∈ selectCandidates r := by
    rw [runCandidates] at hp
    by_cases hgt : ((selectCandidates r).length : Int) > r.maxTests
    · rw [if_pos hgt] at hp
      exact List.mem_of_mem_take hp
    · rw [if_neg hgt] at hp
      exact hp
  rw [selectCandidates_eq] at hp2
  have hp3 := (limitedSelSort_perm testCountKey
    (r.scanResult.packages.filter eligiblePkg) r.maxTests).mem_iff.mp hp2
  exact (List.mem_filter.mp hp3).2

end benchmark

/-- C3: with a positive maximum N, the benchmark orchestrator selects the
candidates with the N smallest test-file counts in ascending order (all
eligible candidates when fewer than N): the test-file counts of the
selection are the first N entries of the fully sorted list of eligible
counts, the selection is ascending, and its length is
min N (number of eligible candidates). -/
theorem C3_selects_n_smallest_ascending (r : benchmark.Runner)
    (h : 0 < r.maxTests) :
    ((benchmark.runCandidates r).map benchmark.testCountKey =
      (List.insertionSort (· ≤ ·)
        ((r.scanResult.packages.filter benchmark.eligiblePkg).map
          benchmark.testCountKey)).take r.maxTests.toNat) ∧
    ((benchmark.runCandidates r).map benchmark.testCountKey).Sorted
      (· ≤ ·) ∧
    (benchmark.runCandidates r).length =
      min r.maxTests.toNat
        (r.scanResult.packages.filter benchmark.eligiblePkg).length := by
  have hlen : (benchmark.selectCandidates r).length =
      (r.scanResult.packages.filter benchmark.eligiblePkg).length := by
    rw [benchmark.selectCandidates_eq]
    exact (benchmark.limitedSelSort_perm benchmark.testCountKey _ _).length_eq
  have hmain : (benchmark.runCandidates r).map benchmark.testCountKey =
      (List.insertionSort (· ≤ ·)
        ((r.scanResult.packages.filter benchmark.eligiblePkg).map
          benchmark.testCountKey)).take r.maxTests.toNat := by
    rw [benchmark.runCandidates]
    by_cases hgt : ((benchmark.selectCandidates r).length : Int) > r.maxTests
    · rw [if_pos hgt, benchmark.selectCandidates_eq]
      exact benchmark.limitedSelSort_take_map benchmark.testCountKey
        r.maxTests (r.scanResult.packages.filter benchmark.eligiblePkg)
    · rw [if_neg hgt, benchmark.selectCandidates_eq]
      have hle : (benchmark.limitedSelSort benchmark.testCountKey r.maxTests
          (r.scanResult.packages.filter benchmark.eligiblePkg)).length ≤
          r.maxTests.toNat := by
        have h2 := hgt
        rw [benchmark.selectCandidates_eq] at h2
        omega
      rw [← List.take_of_length_le hle]
      exact benchmark.limitedSelSort_take_map benchmark.testCountKey
        r.maxTests (r.scanResult.packages.filter benchmark.eligiblePkg)
  refine ⟨hmain, ?_, ?_⟩
  · rw [hmain]
    exact List.Pairwise.sublist (List.take_sublist _ _)
      (List.sorted_insertionSort _ _)
  · rw [benchmark.runCandidates]
    by_cases hgt : ((benchmark.selectCandidates r).length : Int) > r.maxTests
    · rw [if_pos hgt, List.length_take]
      omega
    · rw [if_neg hgt]
      omega

/-- One eligible candidate package with the given test-file count. -/
def candPkg (name : String) (n : Nat) : scanner.Package :=
  { path := "/r/p", relPath := name, hasTestFiles := true,
    testFileCount := n, goTestTargets := 1 }

/-- The five-candidate scenario with test-file counts 5, 1, 3, 8, 2. -/
def srFive : scanner.ScanResult :=
  { repoPath := "/r"
    packages := [candPkg "p5" 5, candPkg "p1" 1, candPkg "p3" 3,
                 candPkg "p8" 8, candPkg "p2" 2] }

/-- A runner over the five-candidate scenario with maximum 2. -/
def rFive : benchmark.Runner :=
  { repoPath := "/r", maxTests := 2, scanResult := srFive }

/-- C3 witness: with maximum 2 against eligible candidates of test-file
counts 5, 1, 3, 8, 2, exactly the candidates with counts 1 and 2 are
selected, in ascending order. -/
theorem C3_witness :
    (0 : Int) < rFive.maxTests ∧
      (benchmark.runCandidates rFive).map benchmark.testCountKey = [1, 2] := by
  have h := C3_selects_n_smallest_ascending rFive (by decide)
  refine ⟨by decide, ?_⟩
  rw [h.1]
  decide

/-- C4 counterexample: with configured maximum 0 (replaced by the default 5
in `NewRunner`) and six eligible candidates, the benchmark phase returns
5 rows, which is more than the configured maximum 0 — so "at most the
configured maximum" fails for non-positive configured maxima. -/
theorem C4_counterexample :
    ¬((benchmark.Run envOk
        (benchmark.NewRunner "/r" srSix 0)).packages.length ≤ 0) := by
  decide

/-- C4 (amended to positive configured maxima): for every positive
configured maximum m, the benchmark phase returns at most m rows, and every
selected candidate has test files, at least one test-rule declaration, and a
test-file count greater than zero and at most 20. -/
theorem C4_rows_bounded_and_candidates_eligible (repoPath : String)
    (result : scanner.ScanResult) (env : benchmark.ExecEnv) (m : Int)
    (h : 0 < m) :
    (benchmark.Run env
        (benchmark.NewRunner repoPath result m)).packages.length ≤ m.toNat ∧
    ∀ p ∈ benchmark.runCandidates (benchmark.NewRunner repoPath result m),
      p.hasTestFiles = true ∧ 0 < p.goTestTargets ∧ 0 < p.testFileCount ∧
        p.testFileCount ≤ 20 := by
  have hmax : (benchmark.NewRunner repoPath result m).maxTests = m := by
    show (if m ≤ 0 then (5 : Int) else m) = m
    rw [if_neg (by omega)]
  constructor
  · rw [benchmark.Run_eq_fold]
    have h1 := benchmark.benchFold_len env (benchmark.NewRunner repoPath result m)
      (benchmark.runCandidates (benchmark.NewRunner repoPath result m)) []
    have h2 := benchmark.runCandidates_len_le
      (benchmark.NewRunner repoPath result m) (by rw [hmax]; exact h)
    rw [hmax] at h2
    simp only [List.length_nil] at h1
    omega
  · intro p hp
    have he := benchmark.runCandidates_mem_eligible
      (benchmark.NewRunner repoPath result m) p hp
    rw [benchmark.eligiblePkg] at he
    simp only [Bool.and_eq_true, decide_eq_true_eq] at he
    exact ⟨he.1.1.1, he.1.1.2, he.1.2, he.2⟩

/-- C4 witness: at configured maximum 1 against six eligible candidates the
benchmark returns at most one row, and the selected candidate is eligible. -/
theorem C4_witness :
    (0 : Int) < 1 ∧
      (benchmark.Run envOk
        (benchmark.NewRunner "/r" srSix 1)).packages.length ≤ (1 : Int).toNat ∧
      ∀ p ∈ benchmark.runCandidates (benchmark.NewRunner "/r" srSix 1),
        p.hasTestFiles = true ∧ 0 < p.goTestTargets ∧ 0 < p.testFileCount ∧
          p.testFileCount ≤ 20 := by
  have h := C4_rows_bounded_and_candidates_eligible "/r" srSix envOk 1
    (by decide)
  exact ⟨by decide, h.1, h.2⟩

/-- The threaded candidate selection returns the untouched runner next to
the plain selection. -/
theorem selectCandidatesSt_eq (r : benchmark.Runner) :
    benchmark.selectCandidatesSt r = (benchmark.selectCandidates r, r) := by
  unfold benchmark.selectCandidatesSt benchmark.selectCandidates
  rw [foldl_pair (fun b (_ : benchmark.Runner) a =>
    if benchmark.eligiblePkg a then b ++ [a] else b)]

/-- C9: neither the metrics calculator nor the benchmark orchestrator
mutates its input: the state-threaded translations return the receiver
unchanged next to the very report/speed-comparison that the direct
translations compute. -/
theorem C9_no_mutation (ts : String) (c : metrics.Calculator)
    (env : benchmark.ExecEnv) (r : benchmark.Runner) :
    metrics.CalculateSt ts c = (metrics.Calculate ts c, c) ∧
    benchmark.RunSt env r = (benchmark.Run env r, r) := by
  constructor
  · unfold metrics.CalculateSt metrics.Calculate
    simp only []
    rw [foldl_pair (fun b (_ : metrics.Calculator) a => metrics.summaryStep b a)]
    rw [foldl_pair (fun b (_ : metrics.Calculator) a => metrics.bazelizedTestsStep b a)]
    rw [foldl_pair (fun b (_ : metrics.Calculator) a => metrics.breakdownStep b a)]
    rfl
  · unfold benchmark.RunSt benchmark.Run
    rw [selectCandidatesSt_eq]
    simp only []
    by_cases h : (benchmark.selectCandidates r).length = 0
    · rw [if_pos h, if_pos h]
    · rw [if_neg h, if_neg h]
      rw [foldl_pair (fun b (s : benchmark.Runner) a =>
        benchmark.benchStep env s b a)]
    

namespace scanner

/-! ## Walk invariants -/

theorem buildAdjust_go (f : FSFile) (pkg : Package) :
    (buildAdjust f pkg).goFileCount = pkg.goFileCount := by
  unfold buildAdjust
  by_cases h : isBuildName f.name
  · rw [if_pos h]
    cases f.content <;> rfl
  · rw [if_neg h]

theorem buildAdjust_test (f : FSFile) (pkg : Package) :
    (buildAdjust f pkg).testFileCount = pkg.testFileCount := by
  unfold buildAdjust
  by_cases h : isBuildName f.name
  · rw [if_pos h]
    cases f.content <;> rfl
  · rw [if_neg h]

theorem goAdjust_go (f : FSFile) (pkg : Package) :
    (goAdjust f pkg).goFileCount =
      pkg.goFileCount + (if isGoSrcName f.name then 1 else 0) := by
  unfold goAdjust
  by_cases h : isGoSrcName f.name
  · rw [if_pos h, if_pos h]
  · rw [if_neg h, if_neg h]
    omega

theorem goAdjust_test (f : FSFile) (pkg : Package) :
    (goAdjust f pkg).testFileCount = pkg.testFileCount := by
  unfold goAdjust
  by_cases h : isGoSrcName f.name
  · rw [if_pos h]
  · rw [if_neg h]

theorem testAdjust_go (f : FSFile) (pkg : Package) :
    (testAdjust f pkg).goFileCount = pkg.goFileCount := by
  unfold testAdjust
  by_cases h : isTestName f.name
  · rw [if_pos h]
  · rw [if_neg h]

theorem testAdjust_test (f : FSFile) (pkg : Package) :
    (testAdjust f pkg).testFileCount =
      pkg.testFileCount + (if isTestName f.name then 1 else 0) := by
  unfold testAdjust
  by_cases h : isTestName f.name
  · rw [if_pos h, if_pos h]
  · rw [if_neg h, if_neg h]
    omega

end scanner

/-! ## Association-list lemmas -/

theorem alPut_vsum {κ β : Type} [BEq κ] (f : β → Nat) (k : κ) (v : β) :
    ∀ (m : List (κ × β)),
    ((alPut k v m).map (fun e => f e.2)).sum +
        (match alGet k m with | some w => f w | none => 0) =
      (m.map (fun e => f e.2)).sum + f v := by
  intro m
  induction m with
  | nil => simp [alPut, alGet]
  | cons e rest ih =>
    match e with
    | (k2, v2) =>
      by_cases h : (k2 == k) = true
      · simp only [alPut, alGet, if_pos h, List.map_cons, List.sum_cons]
        omega
      · simp only [alPut, alGet, if_neg h, List.map_cons, List.sum_cons]
        omega

theorem alGet_none_iff {κ β : Type} [BEq κ] [LawfulBEq κ] (k : κ) :
    ∀ (m : List (κ × β)), alGet k m = none ↔ k ∉ m.map Prod.fst := by
  intro m
  induction m with
  | nil => simp [alGet]
  | cons e rest ih =>
    match e with
    | (k2, v2) =>
      by_cases h : (k2 == k) = true
      · have : k2 = k := eq_of_beq h
        subst this
        simp [alGet, h]
      · have hne : k2 ≠ k := by
          intro hx
          subst hx
          simp at h
        simp only [alGet, if_neg h, List.map_cons, List.mem_cons]
        rw [ih]
        constructor
        · intro hx hy
          rcases hy with hy | hy
          · exact hne hy.symm
          · exact hx hy
        · intro hx hy
          exact hx (Or.inr hy)

theorem alPut_keys {κ β : Type} [BEq κ] [LawfulBEq κ] (k : κ) (v : β) :
    ∀ (m : List (κ × β)),
    (alPut k v m).map Prod.fst =
      (match alGet k m with
       | some _ => m.map Prod.fst
       | none => m.map Prod.fst ++ [k]) := by
  intro m
  induction m with
  | nil => simp [alPut, alGet]
  | cons e rest ih =>
    match e with
    | (k2, v2) =>
      by_cases h : (k2 == k) = true
      · have : k2 = k := eq_of_beq h
        subst this
        simp [alPut, alGet, h]
      · simp only [alPut, alGet, if_neg h, List.map_cons]
        rw [ih]
        cases alGet k rest <;> simp

theorem alPut_mem_keys {κ β : Type} [BEq κ] [LawfulBEq κ] (k : κ) (v : β)
    (m : List (κ × β)) : k ∈ (alPut k v m).map Prod.fst := by
  rw [alPut_keys]
  cases hg : alGet k m with
  | some w =>
    by_contra hx
    have := (alGet_none_iff k m).mpr hx
    rw [hg] at this
    simp at this
  | none => simp

theorem alPut_keys_sup {κ β : Type} [BEq κ] [LawfulBEq κ] (k k2 : κ) (v : β)
    (m : List (κ × β)) (h : k2 ∈ m.map Prod.fst) :
    k2 ∈ (alPut k v m).map Prod.fst := by
  rw [alPut_keys]
  cases alGet k m with
  | some w => exact h
  | none => simp [h]

namespace scanner

theorem pkg0Of_go (s : Scanner) (st : ScanState) (f : FSFile) :
    (pkg0Of s st f).goFileCount =
      (match alGet f.dirParts st.packageMap with
       | some w => w.goFileCount
       | none => 0) := by
  unfold pkg0Of
  cases alGet f.dirParts st.packageMap <;> rfl

theorem pkg0Of_test (s : Scanner) (st : ScanState) (f : FSFile) :
    (pkg0Of s st f).testFileCount =
      (match alGet f.dirParts st.packageMap with
       | some w => w.testFileCount
       | none => 0) := by
  unfold pkg0Of
  cases alGet f.dirParts st.packageMap <;> rfl

/-- One walk step adds 1 to the summed per-package Go-source counts exactly
when the file is a Go source file. -/
theorem processFile_map_go (s : Scanner) (st : ScanState) (f : FSFile) :
    ((processFile s st f).packageMap.map (fun e => e.2.goFileCount)).sum =
      (st.packageMap.map (fun e => e.2.goFileCount)).sum +
        (if isGoSrcName f.name then 1 else 0) := by
  have hv := alPut_vsum (fun p : Package => p.goFileCount) f.dirParts
    (testAdjust f (goAdjust f (buildAdjust f (pkg0Of s st f)))) st.packageMap
  have hc : (testAdjust f (goAdjust f (buildAdjust f
      (pkg0Of s st f)))).goFileCount =
      (pkg0Of s st f).goFileCount + (if isGoSrcName f.name then 1 else 0) := by
    rw [testAdjust_go, goAdjust_go, buildAdjust_go]
  have hp := pkg0Of_go s st f
  show ((alPut f.dirParts
      (testAdjust f (goAdjust f (buildAdjust f (pkg0Of s st f))))
      st.packageMap).map (fun e => e.2.goFileCount)).sum = _
  cases halGet : alGet f.dirParts st.packageMap with
  | some w =>
    rw [halGet] at hv hp
    simp only [] at hv hp
    by_cases hgo : isGoSrcName f.name
    · rw [if_pos hgo] at hc ⊢
      rw [hc, hp] at hv
      omega
    · rw [if_neg hgo] at hc ⊢
      rw [hc, hp] at hv
      omega
  | none =>
    rw [halGet] at hv hp
    simp only [] at hv hp
    by_cases hgo : isGoSrcName f.name
    · rw [if_pos hgo] at hc ⊢
      rw [hc, hp] at hv
      omega
    · rw [if_neg hgo] at hc ⊢
      rw [hc, hp] at hv
      omega

/-- One walk step adds 1 to the summed per-package test-file counts exactly
when the file is a Go test file. -/
theorem processFile_map_test (s : Scanner) (st : ScanState) (f : FSFile) :
    ((processFile s st f).packageMap.map (fun e => e.2.testFileCount)).sum =
      (st.packageMap.map (fun e => e.2.testFileCount)).sum +
        (if isTestName f.name then 1 else 0) := by
  have hv := alPut_vsum (fun p : Package => p.testFileCount) f.dirParts
    (testAdjust f (goAdjust f (buildAdjust f (pkg0Of s st f)))) st.packageMap
  have hc : (testAdjust f (goAdjust f (buildAdjust f
      (pkg0Of s st f)))).testFileCount =
      (pkg0Of s st f).testFileCount + (if isTestName f.name then 1 else 0) := by
    rw [testAdjust_test, goAdjust_test, buildAdjust_test]
  have hp := pkg0Of_test s st f
  show ((alPut f.dirParts
      (testAdjust f (goAdjust f (buildAdjust f (pkg0Of s st f))))
      st.packageMap).map (fun e => e.2.testFileCount)).sum = _
  cases halGet : alGet f.dirParts st.packageMap with
  | some w =>
    rw [halGet] at hv hp
    simp only [] at hv hp
    by_cases ht : isTestName f.name
    · rw [if_pos ht] at hc ⊢
      rw [hc, hp] at hv
      omega
    · rw [if_neg ht] at hc ⊢
      rw [hc, hp] at hv
      omega
  | none =>
    rw [halGet] at hv hp
    simp only [] at hv hp
    by_cases ht : isTestName f.name
    · rw [if_pos ht] at hc ⊢
      rw [hc, hp] at hv
      omega
    · rw [if_neg ht] at hc ⊢
      rw [hc, hp] at hv
      omega

/-- Invariant of the whole walk: the running source-file and test-file
totals equal the sums of the per-package counts in the package map. -/
theorem scanWalk_totals (s : Scanner) (snap : List FSFile) :
    (scanWalk s snap).totalGoFiles =
      ((scanWalk s snap).packageMap.map (fun e => e.2.goFileCount)).sum ∧
    (scanWalk s snap).totalTests =
      ((scanWalk s snap).packageMap.map (fun e => e.2.testFileCount)).sum := by
  suffices h : ∀ (l : List FSFile) (st : ScanState),
      st.totalGoFiles = (st.packageMap.map (fun e => e.2.goFileCount)).sum →
      st.totalTests = (st.packageMap.map (fun e => e.2.testFileCount)).sum →
      (l.foldl (fun st f => if visitedFile s f then processFile s st f else st)
          st).totalGoFiles =
        ((l.foldl (fun st f => if visitedFile s f then processFile s st f
            else st) st).packageMap.map (fun e => e.2.goFileCount)).sum ∧
      (l.foldl (fun st f => if visitedFile s f then processFile s st f else st)
          st).totalTests =
        ((l.foldl (fun st f => if visitedFile s f then processFile s st f
            else st) st).packageMap.map (fun e => e.2.testFileCount)).sum by
    exact h snap ⟨[], 0, 0, 0⟩ rfl rfl
  intro l
  induction l with
  | nil => intro st h1 h2; exact ⟨h1, h2⟩
  | cons f fs ih =>
    intro st h1 h2
    simp only [List.foldl_cons]
    by_cases hv : visitedFile s f
    · rw [if_pos hv]
      apply ih
      · show (if isGoSrcName f.name then st.totalGoFiles + 1
          else st.totalGoFiles) = _
        rw [processFile_map_go]
        by_cases hgo : isGoSrcName f.name
        · rw [if_pos hgo, if_pos hgo]
          omega
        · rw [if_neg hgo, if_neg hgo]
          omega
      · show (if isTestName f.name then st.totalTests + 1
          else st.totalTests) = _
        rw [processFile_map_test]
        by_cases ht : isTestName f.name
        · rw [if_pos ht, if_pos ht]
          omega
        · rw [if_neg ht, if_neg ht]
          omega
    · rw [if_neg hv]
      exact ih st h1 h2

end scanner

theorem filter_sum_eq {α : Type} (f : α → Nat) (p : α → Bool) :
    ∀ (l : List α), (∀ x ∈ l, p x = false → f x = 0) →
    ((l.filter p).map f).sum = (l.map f).sum := by
  intro l
  induction l with
  | nil => intro h; rfl
  | cons x xs ih =>
    intro h
    simp only [List.filter_cons]
    by_cases hx : p x = true
    · rw [if_pos hx]
      simp only [List.map_cons, List.sum_cons]
      rw [ih (fun y hy => h y (List.mem_cons_of_mem x hy))]
    · rw [if_neg hx]
      simp only [List.map_cons, List.sum_cons]
      rw [ih (fun y hy => h y (List.mem_cons_of_mem x hy))]
      have h0 : f x = 0 := h x (List.mem_cons_self x xs)
        (Bool.eq_false_iff.mpr (fun hc => hx hc))
      omega

/-- The directory with only a manifest file, dropped after the walk. -/
def snapBuildOnly : List scanner.FSFile :=
  [{ dirParts := ["a"], name := "BUILD", content := some [] }]

/-- C2 counterexample: a directory containing only a BUILD file contributes
its file to the manifest-file total, yet its Package is discarded by the
post-walk filtering, so the totals DO include a file from a directory absent
from the final Package set. -/
theorem C2_counterexample :
    (scanner.Scan (scanner.NewScanner "/r") snapBuildOnly).totalBUILDs = 1 ∧
    (scanner.Scan (scanner.NewScanner "/r") snapBuildOnly).packages = [] := by
  decide

/-- C2 (amended): the source-file and test-file totals only count files of
retained directories — they equal the sums of the per-package counts over
the final Package set — while the manifest-file total may include BUILD
files from directories that are dropped. -/
theorem C2_go_and_test_totals_match_retained (s : scanner.Scanner)
    (snap : List scanner.FSFile) :
    (scanner.Scan s snap).totalGoFiles =
      ((scanner.Scan s snap).packages.map (fun p => p.goFileCount)).sum ∧
    (scanner.Scan s snap).totalTests =
      ((scanner.Scan s snap).packages.map (fun p => p.testFileCount)).sum := by
  have hw := scanner.scanWalk_totals s snap
  constructor
  · show (scanner.scanWalk s snap).totalGoFiles = _
    rw [hw.1]
    have hf := filter_sum_eq (fun p : scanner.Package => p.goFileCount)
      (fun p => p.goFileCount > 0 || p.testFileCount > 0)
      ((scanner.scanWalk s snap).packageMap.map Prod.snd)
      (by
        intro x _ hx
        simp only [Bool.or_eq_false_iff, decide_eq_false_iff_not,
          Nat.not_lt, Nat.le_zero] at hx
        show x.goFileCount = 0
        omega)
    have hmm : (((scanner.scanWalk s snap).packageMap.map Prod.snd).map
        (fun p : scanner.Package => p.goFileCount)) =
        (scanner.scanWalk s snap).packageMap.map
          (fun e => e.2.goFileCount) := by
      rw [List.map_map]
      rfl
    rw [← hmm]
    exact hf.symm
  · show (scanner.scanWalk s snap).totalTests = _
    rw [hw.2]
    have hf := filter_sum_eq (fun p : scanner.Package => p.testFileCount)
      (fun p => p.goFileCount > 0 || p.testFileCount > 0)
      ((scanner.scanWalk s snap).packageMap.map Prod.snd)
      (by
        intro x _ hx
        simp only [Bool.or_eq_false_iff, decide_eq_false_iff_not,
          Nat.not_lt, Nat.le_zero] at hx
        show x.testFileCount = 0
        omega)
    have hmm : (((scanner.scanWalk s snap).packageMap.map Prod.snd).map
        (fun p : scanner.Package => p.testFileCount)) =
        (scanner.scanWalk s snap).packageMap.map
          (fun e => e.2.testFileCount) := by
      rw [List.map_map]
      rfl
    rw [← hmm]
    exact hf.symm

namespace scanner

/-- Keys only accumulate along the walk. -/
theorem walk_keys_mono (s : Scanner) :
    ∀ (l : List FSFile) (st : ScanState) (k : List String),
    k ∈ st.packageMap.map Prod.fst →
    k ∈ ((l.foldl (fun st f => if visitedFile s f then processFile s st f
        else st) st).packageMap.map Prod.fst) := by
  intro l
  induction l with
  | nil => intro st k h; exact h
  | cons f fs ih =>
    intro st k h
    simp only [List.foldl_cons]
    by_cases hv : visitedFile s f
    · rw [if_pos hv]
      apply ih
      exact alPut_keys_sup f.dirParts k _ st.packageMap h
    · rw [if_neg hv]
      exact ih st k h

/-- Every visited file leaves its directory in the package map at the end
of the walk, before any filtering happens. -/
theorem walk_keys_file (s : Scanner) :
    ∀ (l : List FSFile) (st : ScanState), ∀ f ∈ l, visitedFile s f = true →
    f.dirParts ∈ ((l.foldl (fun st f => if visitedFile s f then
        processFile s st f else st) st).packageMap.map Prod.fst) := by
  intro l
  induction l with
  | nil =>
    intro st f hf
    simp at hf
  | cons g gs ih =>
    intro st f hf hv
    rcases List.mem_cons.mp hf with h1 | h1
    · subst h1
      simp only [List.foldl_cons, if_pos hv]
      apply walk_keys_mono
      exact alPut_mem_keys f.dirParts _ st.packageMap
    · simp only [List.foldl_cons]
      by_cases hg : visitedFile s g
      · rw [if_pos hg]
        exact ih (processFile s st g) f h1 hv
      · rw [if_neg hg]
        exact ih st f h1 hv

end scanner

/-- C7: a Package is in the final result set iff it is an entry of the
post-walk package map with a positive Go-source or test-file count; and the
filtering happens after the walk, not during it — every visited file's
directory still has a package-map entry when the walk ends, even when it
only held non-source files. -/
theorem C7_retained_iff_positive_counts (s : scanner.Scanner)
    (snap : List scanner.FSFile) :
    (∀ p : scanner.Package,
      p ∈ (scanner.Scan s snap).packages ↔
        (∃ k, (k, p) ∈ (scanner.scanWalk s snap).packageMap) ∧
          (0 < p.goFileCount ∨ 0 < p.testFileCount)) ∧
    (∀ f ∈ snap, scanner.visitedFile s f = true →
      f.dirParts ∈ (scanner.scanWalk s snap).packageMap.map Prod.fst) := by
  constructor
  · intro p
    show p ∈ ((scanner.scanWalk s snap).packageMap.map Prod.snd).filter
        (fun p => p.goFileCount > 0 || p.testFileCount > 0) ↔ _
    rw [List.mem_filter]
    constructor
    · intro h
      rcases List.mem_map.mp h.1 with ⟨e, he, hep⟩
      refine ⟨⟨e.1, ?_⟩, ?_⟩
      · have : (e.1, p) = e := by
          rw [← hep]
        rw [this]
        exact he
      · have h2 := h.2
        simp only [Bool.or_eq_true, decide_eq_true_eq] at h2
        exact h2
    · intro h
      rcases h.1 with ⟨k, hk⟩
      constructor
      · exact List.mem_map.mpr ⟨(k, p), hk, rfl⟩
      · simp only [Bool.or_eq_true, decide_eq_true_eq]
        exact h.2
  · intro f hf hv
    exact scanner.walk_keys_file s snap ⟨[], 0, 0, 0⟩ f hf hv

/-- The documentation-only directory: one README, no Go files. -/
def snapDoc : List scanner.FSFile :=
  [{ dirParts := ["c"], name := "README.md", content := none }]

/-- The README file of `snapDoc`. -/
def docFile : scanner.FSFile :=
  { dirParts := ["c"], name := "README.md", content := none }

/-- C7 witness: the README-only directory is visited, present in the
post-walk package map, and absent from the final (filtered) result set. -/
theorem C7_witness :
    scanner.visitedFile (scanner.NewScanner "/r") docFile = true ∧
    ["c"] ∈ (scanner.scanWalk (scanner.NewScanner "/r")
      snapDoc).packageMap.map Prod.fst ∧
    (scanner.Scan (scanner.NewScanner "/r") snapDoc).packages = [] := by
  refine ⟨by decide, ?_, by decide⟩
  exact (C7_retained_iff_positive_counts (scanner.NewScanner "/r") snapDoc).2
    docFile (by decide) (by decide)

theorem alGet_mem {κ β : Type} [BEq κ] [LawfulBEq κ] (k : κ) (w : β) :
    ∀ (m : List (κ × β)), alGet k m = some w → (k, w) ∈ m := by
  intro m
  induction m with
  | nil => intro h; simp [alGet] at h
  | cons y rest ih =>
    match y with
    | (k2, v2) =>
      intro h
      by_cases hk : (k2 == k) = true
      · simp only [alGet, if_pos hk, Option.some.injEq] at h
        have hk2 : k2 = k := eq_of_beq hk
        subst hk2
        subst h
        exact List.mem_cons_self _ _
      · simp only [alGet, if_neg hk] at h
        exact List.mem_cons_of_mem _ (ih h)

theorem alPut_mem {κ β : Type} [BEq κ] (k : κ) (v : β) :
    ∀ (m : List (κ × β)), ∀ e ∈ alPut k v m, e = (k, v) ∨ e ∈ m := by
  intro m
  induction m with
  | nil =>
    intro e he
    simp [alPut] at he
    simp [he]
  | cons x rest ih =>
    intro e he
    match x with
    | (k2, v2) =>
      by_cases h : (k2 == k) = true
      · simp only [alPut, if_pos h, List.mem_cons] at he
        rcases he with he | he
        · exact Or.inl he
        · exact Or.inr (List.mem_cons_of_mem _ he)
      · simp only [alPut, if_neg h, List.mem_cons] at he
        rcases he with he | he
        · exact Or.inr (List.mem_cons.mpr (Or.inl he))
        · rcases ih e he with h2 | h2
          · exact Or.inl h2
          · exact Or.inr (List.mem_cons_of_mem _ h2)

namespace metrics

theorem bumpTotals_total (pkg : scanner.Package) (dm : DirectoryMetrics) :
    (bumpTotals pkg dm).totalPackages = dm.totalPackages + 1 := by
  unfold bumpTotals
  by_cases h1 : pkg.hasBuildFile <;> by_cases h2 : pkg.hasTestFiles <;>
    simp [h1, h2]

theorem bumpTotals_name (pkg : scanner.Package) (dm : DirectoryMetrics) :
    (bumpTotals pkg dm).name = dm.name := by
  unfold bumpTotals
  by_cases h1 : pkg.hasBuildFile <;> by_cases h2 : pkg.hasTestFiles <;>
    simp [h1, h2]

theorem breakdownStep_sum (m : List (String × DirectoryMetrics))
    (pkg : scanner.Package) :
    ((breakdownStep m pkg).map (fun e => e.2.totalPackages)).sum =
      (m.map (fun e => e.2.totalPackages)).sum + 1 := by
  unfold breakdownStep
  simp only []
  cases hg : alGet (dirLabel pkg.relPath) m with
  | some w =>
    show ((alPut (dirLabel pkg.relPath) (bumpTotals pkg w) m).map
        (fun e => e.2.totalPackages)).sum = _
    have hv := alPut_vsum (fun d : DirectoryMetrics => d.totalPackages)
      (dirLabel pkg.relPath) (bumpTotals pkg w) m
    rw [hg] at hv
    simp only [] at hv
    rw [bumpTotals_total] at hv
    omega
  | none =>
    show ((alPut (dirLabel pkg.relPath)
        (bumpTotals pkg { name := dirLabel pkg.relPath }) m).map
        (fun e => e.2.totalPackages)).sum = _
    have hv := alPut_vsum (fun d : DirectoryMetrics => d.totalPackages)
      (dirLabel pkg.relPath)
      (bumpTotals pkg { name := dirLabel pkg.relPath }) m
    rw [hg] at hv
    simp only [] at hv
    rw [bumpTotals_total] at hv
    have hz : ({ name := dirLabel pkg.relPath } :
        DirectoryMetrics).totalPackages = 0 := rfl
    rw [hz] at hv
    omega

theorem breakdownFold_sum (l : List scanner.Package) :
    ∀ (m : List (String × DirectoryMetrics)),
    ((l.foldl breakdownStep m).map (fun e => e.2.totalPackages)).sum =
      (m.map (fun e => e.2.totalPackages)).sum + l.length := by
  induction l with
  | nil => intro m; simp
  | cons x xs ih =>
    intro m
    simp only [List.foldl_cons, List.length_cons]
    rw [ih, breakdownStep_sum]
    omega

theorem breakdownFold_keys (l : List scanner.Package) :
    ∀ (m : List (String × DirectoryMetrics)),
    (m.map Prod.fst).Nodup → (∀ e ∈ m, e.2.name = e.1) →
    ((l.foldl breakdownStep m).map Prod.fst).Nodup ∧
      (∀ e ∈ l.foldl breakdownStep m, e.2.name = e.1) := by
  induction l with
  | nil => intro m h1 h2; exact ⟨h1, h2⟩
  | cons x xs ih =>
    intro m h1 h2
    simp only [List.foldl_cons]
    apply ih
    · show ((alPut (dirLabel x.relPath) _ m).map Prod.fst).Nodup
      rw [alPut_keys]
      cases hg : alGet (dirLabel x.relPath) m with
      | some w => exact h1
      | none =>
        have hnot := (alGet_none_iff (dirLabel x.relPath) m).mp hg
        simp only [List.nodup_append, List.nodup_cons, List.nodup_nil]
        refine ⟨h1, by simp, ?_⟩
        intro a ha
        simp only [List.mem_singleton]
        intro hx
        subst hx
        exact hnot ha
    · intro e he
      show e.2.name = e.1
      rcases alPut_mem (dirLabel x.relPath) _ m e he with h3 | h3
      · subst h3
        show (bumpTotals x _).name = dirLabel x.relPath
        rw [bumpTotals_name]
        cases hg : alGet (dirLabel x.relPath) m with
        | some w => exact h2 _ (alGet_mem (dirLabel x.relPath) w m hg)
        | none => rfl
      · exact h2 e h3

end metrics

namespace metrics

theorem breakdownPcts_total (dm : DirectoryMetrics) :
    (breakdownPcts dm).totalPackages = dm.totalPackages := by
  unfold breakdownPcts
  by_cases h : dm.totalPackages > 0 <;> simp [h]

theorem breakdownPcts_name (dm : DirectoryMetrics) :
    (breakdownPcts dm).name = dm.name := by
  unfold breakdownPcts
  by_cases h : dm.totalPackages > 0 <;> simp [h]

theorem insertByTotalDesc_perm (d : DirectoryMetrics) :
    ∀ (l : List DirectoryMetrics),
    List.Perm (insertByTotalDesc d l) (d :: l) := by
  intro l
  induction l with
  | nil => exact List.Perm.refl _
  | cons x xs ih =>
    unfold insertByTotalDesc
    by_cases h : d.totalPackages ≤ x.totalPackages
    · rw [if_pos h]
      exact (ih.cons x).trans (List.Perm.swap d x xs)
    · rw [if_neg h]

theorem sortByTotalDesc_perm :
    ∀ (l : List DirectoryMetrics), List.Perm (sortByTotalDesc l) l := by
  intro l
  induction l with
  | nil => exact List.Perm.refl _
  | cons x xs ih =>
    unfold sortByTotalDesc
    exact (insertByTotalDesc_perm x (sortByTotalDesc xs)).trans (ih.cons x)

theorem insertByTotalDesc_sorted (d : DirectoryMetrics) :
    ∀ (l : List DirectoryMetrics),
    l.Pairwise (fun a b => b.totalPackages ≤ a.totalPackages) →
    (insertByTotalDesc d l).Pairwise
      (fun a b => b.totalPackages ≤ a.totalPackages) := by
  intro l
  induction l with
  | nil =>
    intro _
    simp [insertByTotalDesc]
  | cons x xs ih =>
    intro hs
    rcases List.pairwise_cons.mp hs with ⟨hx, hxs⟩
    unfold insertByTotalDesc
    by_cases h : d.totalPackages ≤ x.totalPackages
    · rw [if_pos h]
      rw [List.pairwise_cons]
      refine ⟨?_, ih hxs⟩
      intro z hz
      have hz2 := (insertByTotalDesc_perm d xs).mem_iff.mp hz
      rcases List.mem_cons.mp hz2 with h2 | h2
      · subst h2
        exact h
      · exact hx z h2
    · rw [if_neg h]
      rw [List.pairwise_cons]
      refine ⟨?_, hs⟩
      intro z hz
      rcases List.mem_cons.mp hz with h2 | h2
      · subst h2
        omega
      · have := hx z h2
        omega

theorem sortByTotalDesc_sorted :
    ∀ (l : List DirectoryMetrics),
    (sortByTotalDesc l).Pairwise
      (fun a b => b.totalPackages ≤ a.totalPackages) := by
  intro l
  induction l with
  | nil => simp [sortByTotalDesc]
  | cons x xs ih =>
    unfold sortByTotalDesc
    exact insertByTotalDesc_sorted x (sortByTotalDesc xs) ih

theorem Calculate_totalPackages (ts : String) (c : Calculator) :
    (Calculate ts c).summary.totalPackages =
      c.scanResult.packages.length := by
  unfold Calculate
  simp only []
  by_cases h1 : c.scanResult.packages.length > 0 <;>
    by_cases h2 : (c.scanResult.packages.foldl summaryStep
      (0, 0, 0, [])).2.1 > 0 <;>
    simp [h1, h2]

end metrics

/-- C6: the directory breakdown partitions the retained packages — its
`totalPackages` entries sum to `summary.totalPackages`, the rows are ordered
descending by `totalPackages`, and there is exactly one row per group
label. -/
theorem C6_breakdown_partitions_and_descending (ts : String)
    (c : metrics.Calculator) :
    ((metrics.Calculate ts c).directoryBreakdown.map
        (fun d => d.totalPackages)).sum =
      (metrics.Calculate ts c).summary.totalPackages ∧
    (metrics.Calculate ts c).directoryBreakdown.Pairwise
      (fun a b => b.totalPackages ≤ a.totalPackages) ∧
    ((metrics.Calculate ts c).directoryBreakdown.map
        (fun d => d.name)).Nodup := by
  have hbd : (metrics.Calculate ts c).directoryBreakdown =
      metrics.sortByTotalDesc
        (((c.scanResult.packages.foldl metrics.breakdownStep []).map
          Prod.snd).map metrics.breakdownPcts) := rfl
  have hsum0 := metrics.breakdownFold_sum c.scanResult.packages []
  simp only [List.map_nil, List.sum_nil, Nat.zero_add] at hsum0
  have hperm := metrics.sortByTotalDesc_perm
    (((c.scanResult.packages.foldl metrics.breakdownStep []).map
      Prod.snd).map metrics.breakdownPcts)
  refine ⟨?_, ?_, ?_⟩
  · rw [hbd, metrics.Calculate_totalPackages]
    have h1 : (((metrics.sortByTotalDesc
        (((c.scanResult.packages.foldl metrics.breakdownStep []).map
          Prod.snd).map metrics.breakdownPcts)).map
          (fun d => d.totalPackages)).sum) =
        ((((c.scanResult.packages.foldl metrics.breakdownStep []).map
          Prod.snd).map metrics.breakdownPcts).map
          (fun d => d.totalPackages)).sum :=
      (hperm.map (fun d => d.totalPackages)).sum_eq
    rw [h1]
    have h2 : ((((c.scanResult.packages.foldl metrics.breakdownStep []).map
        Prod.snd).map metrics.breakdownPcts).map
        (fun d => d.totalPackages)) =
        (((c.scanResult.packages.foldl metrics.breakdownStep []).map
          Prod.snd).map (fun d => d.totalPackages)) := by
      rw [List.map_map]
      apply List.map_congr_left
      intro d _
      exact metrics.breakdownPcts_total d
    rw [h2]
    have h3 : (((c.scanResult.packages.foldl metrics.breakdownStep []).map
        Prod.snd).map (fun d => d.totalPackages)) =
        ((c.scanResult.packages.foldl metrics.breakdownStep []).map
          (fun e => e.2.totalPackages)) := by
      rw [List.map_map]
      rfl
    rw [h3, hsum0]
  · rw [hbd]
    exact metrics.sortByTotalDesc_sorted _
  · rw [hbd]
    have hkeys := metrics.breakdownFold_keys c.scanResult.packages []
      (by simp) (by simp)
    have hnames : ((((c.scanResult.packages.foldl metrics.breakdownStep
        []).map Prod.snd).map metrics.breakdownPcts).map
        (fun d => d.name)) =
        ((c.scanResult.packages.foldl metrics.breakdownStep []).map
          Prod.fst) := by
      rw [List.map_map, List.map_map]
      apply List.map_congr_left
      intro e he
      show (metrics.breakdownPcts e.2).name = e.1
      rw [metrics.breakdownPcts_name]
      exact hkeys.2 e he
    have hpermn := (hperm.map (fun d => d.name)).nodup_iff
    rw [hpermn, hnames]
    exact hkeys.1

namespace scanner

/-! ## Per-line characterization of the rule counter

`lineDeclares` is the claim's per-line reading of the rule patterns,
phrased from the specification: a line declares a rule when, after leading
whitespace, it begins with the keyword followed (possibly after more
whitespace) by an opening parenthesis — all on the same line.  Because RE2's
`\s` also matches newlines, the regex count can differ from the per-line
count when the parenthesis only appears on a later line; `lineOk` rules
that shape out. -/

/-- Modelled from the spec: a line that (after leading whitespace) begins
with the rule keyword followed by an opening call parenthesis. -/
def lineDeclares (kw : List Char) (line : List Char) : Bool :=
  startsWithChars kw (line.dropWhile isSpaceChar) &&
    match ((line.dropWhile isSpaceChar).drop kw.length).dropWhile
        isSpaceChar with
    | '(' :: _ => true
    | _ => false

/-- Lines on which the regex count and the per-line count agree: the line
holds no newline, and it does not consist of the keyword followed by nothing
but whitespace up to the end of the line (which would let `\s*\(` spill over
to the next line). -/
def lineOk (kw : List Char) (l : List Char) : Prop :=
  '\n' ∉ l ∧
  ¬(startsWithChars kw (l.dropWhile isSpaceChar) = true ∧
    ((l.dropWhile isSpaceChar).drop kw.length).dropWhile isSpaceChar = [])

instance (kw l : List Char) : Decidable (lineOk kw l) := by
  unfold lineOk
  infer_instance

theorem dropWhile_all {α : Type} (p : α → Bool) :
    ∀ (l : List α), (∀ c ∈ l, p c = true) → l.dropWhile p = [] := by
  intro l
  induction l with
  | nil => intro h; rfl
  | cons c cs ih =>
    intro h
    rw [List.dropWhile_cons_of_pos (h c (List.mem_cons_self c cs))]
    exact ih (fun x hx => h x (List.mem_cons_of_mem c hx))

theorem startsWithChars_len :
    ∀ (kw s : List Char), startsWithChars kw s = true → kw.length ≤ s.length := by
  intro kw
  induction kw with
  | nil => intro s _; simp
  | cons k kw ih =>
    intro s h
    cases s with
    | nil => simp [startsWithChars] at h
    | cons c cs =>
      simp only [startsWithChars, Bool.and_eq_true] at h
      have := ih cs h.2
      simp only [List.length_cons]
      omega

theorem startsWith_break (kw : List Char) (hkw : '\n' ∉ kw) :
    ∀ (s Y : List Char),
    startsWithChars kw (s ++ '\n' :: Y) = startsWithChars kw s := by
  induction kw with
  | nil => intro s Y; rfl
  | cons k kw ih =>
    intro s Y
    cases s with
    | nil =>
      show ((k == '\n') && startsWithChars kw Y) = false
      have hk : k ≠ '\n' := by
        intro hx
        exact hkw (hx ▸ List.mem_cons_self k kw)
      simp [hk]
    | cons c cs =>
      show ((k == c) && startsWithChars kw (cs ++ '\n' :: Y)) =
        ((k == c) && startsWithChars kw cs)
      rw [ih (fun hx => hkw (List.mem_cons_of_mem k hx)) cs Y]

theorem mem_of_mem_dropWhile {α : Type} (p : α → Bool) :
    ∀ (l : List α) (x : α), x ∈ l.dropWhile p → x ∈ l := by
  intro l
  induction l with
  | nil => intro x h; exact h
  | cons c cs ih =>
    intro x h
    by_cases hc : p c = true
    · rw [List.dropWhile_cons_of_pos hc] at h
      exact List.mem_cons_of_mem c (ih x h)
    · rw [List.dropWhile_cons_of_neg hc] at h
      exact h

end scanner

namespace scanner

theorem dropWhile_nil_all {α : Type} (p : α → Bool) :
    ∀ (l : List α), l.dropWhile p = [] → ∀ c ∈ l, p c = true := by
  intro l
  induction l with
  | nil => intro _ c hc; simp at hc
  | cons x xs ih =>
    intro h c hc
    by_cases hx : p x = true
    · rw [List.dropWhile_cons_of_pos hx] at h
      rcases List.mem_cons.mp hc with h1 | h1
      · subst h1; exact hx
      · exact ih h c h1
    · rw [List.dropWhile_cons_of_neg hx] at h
      simp at h

/-- Attempting the pattern at an anchor that sits a whitespace run before a
newline-free line either fails (when the line does not declare the rule) or
consumes up to the opening parenthesis of the declaration, leaving the rest
of the line and everything after it. -/
theorem tryMatch_at_line (kw : List Char) (hkw2 : '\n' ∉ kw)
    (V l T : List Char) (hV : ∀ c ∈ V, isSpaceChar c = true)
    (hnl : '\n' ∉ l)
    (hok : ¬(startsWithChars kw (l.dropWhile isSpaceChar) = true ∧
      ((l.dropWhile isSpaceChar).drop kw.length).dropWhile isSpaceChar = []))
    (hnb : ¬∀ c ∈ l, isSpaceChar c = true) :
    (lineDeclares kw l = false ∧ tryMatch kw (V ++ (l ++ '\n' :: T)) = none) ∨
    (∃ tail, lineDeclares kw l = true ∧ '\n' ∉ tail ∧
      tryMatch kw (V ++ (l ++ '\n' :: T)) = some (tail ++ '\n' :: T)) := by
  have hs_ne : l.dropWhile isSpaceChar ≠ [] := by
    intro hx
    exact hnb (dropWhile_nil_all isSpaceChar l hx)
  have hd1 : (V ++ (l ++ '\n' :: T)).dropWhile isSpaceChar =
      l.dropWhile isSpaceChar ++ '\n' :: T := by
    rw [List.dropWhile_append_of_pos hV, List.dropWhile_append,
      if_neg (by simp [List.isEmpty_iff, hs_ne])]
  unfold tryMatch
  rw [hd1, startsWith_break kw hkw2]
  by_cases hpre : startsWithChars kw (l.dropWhile isSpaceChar) = true
  · rw [if_pos hpre]
    have hlen := startsWithChars_len kw _ hpre
    rw [List.drop_append_of_le_length hlen]
    by_cases hue : ((l.dropWhile isSpaceChar).drop kw.length).dropWhile
        isSpaceChar = []
    · exact absurd ⟨hpre, hue⟩ hok
    · rw [List.dropWhile_append, if_neg (by simp [List.isEmpty_iff, hue])]
      cases hud : ((l.dropWhile isSpaceChar).drop kw.length).dropWhile
          isSpaceChar with
      | nil => exact absurd hud hue
      | cons d tail0 =>
        by_cases hd : d = '('
        · subst hd
          right
          refine ⟨tail0, ?_, ?_, ?_⟩
          · unfold lineDeclares
            rw [hud, hpre]
            rfl
          · intro hx
            have h1 : '\n' ∈ ((l.dropWhile isSpaceChar).drop
                kw.length).dropWhile isSpaceChar := by
              rw [hud]
              exact List.mem_cons_of_mem '(' hx
            have h2 := mem_of_mem_dropWhile isSpaceChar _ _ h1
            have h3 := List.drop_subset kw.length (l.dropWhile isSpaceChar) h2
            have h4 := mem_of_mem_dropWhile isSpaceChar l '\n' h3
            exact hnl h4
          · rfl
        · left
          constructor
          · unfold lineDeclares
            rw [hud, hpre]
            simp only [Bool.true_and]
            split
            · rename_i tail heq
              injection heq with h1 h2
              exact absurd h1 hd
            · rfl
          · show (match d :: (tail0 ++ '\n' :: T) with
              | '(' :: r => some r
              | _ => none) = none
            split
            · rename_i r heq
              injection heq with h1 h2
              exact absurd h1 hd
            · rfl
  · rw [if_neg hpre]
    left
    refine ⟨?_, rfl⟩
    unfold lineDeclares
    rw [Bool.and_eq_false_iff]
    left
    exact Bool.eq_false_iff.mpr hpre

end scanner

namespace scanner

theorem countMatches_some (kw cs r : List Char) (hne : cs ≠ [])
    (hm : tryMatch kw cs = some r) :
    countMatches kw cs true = 1 + countMatches kw r false := by
  cases cs with
  | nil => exact absurd rfl hne
  | cons c cs => exact countMatches_cons_some kw c cs r hm

theorem countMatches_none (kw cs : List Char) (c0 : Char) (cs0 : List Char)
    (hcs : cs = c0 :: cs0) (hm : tryMatch kw cs = none) :
    countMatches kw cs true = countMatches kw cs0 (c0 == '\n') := by
  subst hcs
  exact countMatches_cons_none kw c0 cs0 hm

/-- Scanning an all-whitespace text finds no match. -/
theorem countMatches_spaces (kw : List Char) (hkw1 : kw ≠ []) :
    ∀ (W : List Char), (∀ c ∈ W, isSpaceChar c = true) → ∀ (a : Bool),
    countMatches kw W a = 0 := by
  intro W
  induction W with
  | nil => intro _ a; exact countMatches_nil kw a
  | cons c cs ih =>
    intro h a
    have hcs : ∀ x ∈ cs, isSpaceChar x = true :=
      fun x hx => h x (List.mem_cons_of_mem c hx)
    cases a with
    | false =>
      rw [countMatches_cons_false]
      exact ih hcs _
    | true =>
      have hm : tryMatch kw (c :: cs) = none := by
        unfold tryMatch
        rw [dropWhile_all isSpaceChar (c :: cs) h]
        cases kw with
        | nil => exact absurd rfl hkw1
        | cons k kw2 =>
          rw [if_neg (by simp [startsWithChars])]
      rw [countMatches_cons_none kw c cs hm]
      exact ih hcs _

/-- Unanchored scanning skips the rest of the current line; counting resumes
at the next line start. -/
theorem countMatches_skip_line (kw : List Char) :
    ∀ (X : List Char), '\n' ∉ X → ∀ (T : List Char),
    countMatches kw (X ++ '\n' :: T) false = countMatches kw T true := by
  intro X
  induction X with
  | nil =>
    intro _ T
    rw [List.nil_append, countMatches_cons_false]
    simp
  | cons c cs ih =>
    intro h T
    rw [List.cons_append, countMatches_cons_false]
    have hc : (c == '\n') = false := by
      simp only [beq_eq_false_iff_ne, ne_eq]
      intro hx
      exact h (hx ▸ List.mem_cons_self c cs)
    rw [hc]
    exact ih (fun hx => h (List.mem_cons_of_mem c hx)) T

/-- Scanning past a line that does not declare the rule (in any anchor
state, after any whitespace run) continues at the next line start. -/
theorem countMatches_fail_line (kw : List Char) (hkw2 : '\n' ∉ kw)
    (l T : List Char) (hnl : '\n' ∉ l)
    (hok : ¬(startsWithChars kw (l.dropWhile isSpaceChar) = true ∧
      ((l.dropWhile isSpaceChar).drop kw.length).dropWhile isSpaceChar = []))
    (hnb : ¬∀ c ∈ l, isSpaceChar c = true)
    (hfail : lineDeclares kw l = false) :
    ∀ (V : List Char), (∀ c ∈ V, isSpaceChar c = true) → ∀ (a : Bool),
    countMatches kw (V ++ (l ++ '\n' :: T)) a = countMatches kw T true := by
  have hmnone : ∀ (V2 : List Char), (∀ c ∈ V2, isSpaceChar c = true) →
      tryMatch kw (V2 ++ (l ++ '\n' :: T)) = none := by
    intro V2 hV2
    rcases tryMatch_at_line kw hkw2 V2 l T hV2 hnl hok hnb with h | h
    · exact h.2
    · rcases h with ⟨tail, hdec, _, _⟩
      rw [hfail] at hdec
      exact absurd hdec (by simp)
  intro V
  induction V with
  | nil =>
    intro _ a
    rw [List.nil_append]
    cases a with
    | false => exact countMatches_skip_line kw l hnl T
    | true =>
      have hlne : l ≠ [] := by
        intro hx
        subst hx
        exact hnb (by simp)
      have hm := hmnone [] (by simp)
      rw [List.nil_append] at hm
      cases hl0 : l with
      | nil => exact absurd hl0 hlne
      | cons c cs =>
        subst hl0
        rw [List.cons_append, countMatches_cons_none kw c (cs ++ '\n' :: T) hm]
        have hc : (c == '\n') = false := by
          simp only [beq_eq_false_iff_ne, ne_eq]
          intro hx
          exact hnl (hx ▸ List.mem_cons_self c cs)
        rw [hc]
        exact countMatches_skip_line kw cs
          (fun hx => hnl (List.mem_cons_of_mem c hx)) T
  | cons v vs ih =>
    intro hV a
    have hvs : ∀ c ∈ vs, isSpaceChar c = true :=
      fun c hc => hV c (List.mem_cons_of_mem v hc)
    rw [List.cons_append]
    cases a with
    | false =>
      rw [countMatches_cons_false]
      exact ih hvs _
    | true =>
      have hm := hmnone (v :: vs) hV
      rw [List.cons_append] at hm
      rw [countMatches_cons_none kw v (vs ++ (l ++ '\n' :: T)) hm]
      exact ih hvs _

end scanner

namespace scanner

/-- Main counting lemma: on manifests whose lines satisfy `lineOk`, the
regex scan over the assembled text (preceded by any whitespace run) counts
exactly the lines that declare the rule. -/
theorem countMatches_buildText (kw : List Char) (hkw1 : kw ≠ [])
    (hkw2 : '\n' ∉ kw) :
    ∀ (lines : List String), (∀ l ∈ lines, lineOk kw l.toList) →
    ∀ (W : List Char), (∀ c ∈ W, isSpaceChar c = true) →
    countMatches kw (W ++ buildText lines) true =
      lines.countP (fun l => lineDeclares kw l.toList) := by
  intro lines
  induction lines with
  | nil =>
    intro _ W hW
    rw [show buildText [] = [] from rfl, List.append_nil,
      countMatches_spaces kw hkw1 W hW]
    rfl
  | cons l ls ih =>
    intro hok W hW
    have hOkl := hok l (List.mem_cons_self l ls)
    have hOkls : ∀ x ∈ ls, lineOk kw x.toList :=
      fun x hx => hok x (List.mem_cons_of_mem l hx)
    have hnl : '\n' ∉ l.toList := hOkl.1
    have hok3 := hOkl.2
    rw [show buildText (l :: ls) = l.toList ++ '\n' :: buildText ls from rfl]
    by_cases hbl : ∀ c ∈ l.toList, isSpaceChar c = true
    · have hdecl : lineDeclares kw l.toList = false := by
        unfold lineDeclares
        rw [dropWhile_all isSpaceChar _ hbl]
        cases kw with
        | nil => exact absurd rfl hkw1
        | cons k kw2 => simp [startsWithChars]
      have hassoc : W ++ (l.toList ++ '\n' :: buildText ls) =
          (W ++ l.toList ++ ['\n']) ++ buildText ls := by
        simp [List.append_assoc]
      rw [hassoc, ih hOkls (W ++ l.toList ++ ['\n'])
        (by
          intro c hc
          rcases List.mem_append.mp hc with hc2 | hc2
          · rcases List.mem_append.mp hc2 with hc3 | hc3
            · exact hW c hc3
            · exact hbl c hc3
          · have : c = '\n' := by simpa using hc2
            subst this
            rfl)]
      rw [List.countP_cons]
      rw [hdecl]
      simp
    · by_cases hdecl : lineDeclares kw l.toList = true
      · rcases tryMatch_at_line kw hkw2 W l.toList (buildText ls) hW hnl
          hok3 hbl with h | h
        · rw [h.1] at hdecl
          exact absurd hdecl (by simp)
        · rcases h with ⟨tail, _, htail_nl, hm⟩
          have hne : W ++ (l.toList ++ '\n' :: buildText ls) ≠ [] := by
            simp
          rw [countMatches_some kw _ _ hne hm,
            countMatches_skip_line kw tail htail_nl]
          have hih := ih hOkls [] (by simp)
          rw [List.nil_append] at hih
          rw [hih, List.countP_cons]
          rw [hdecl, if_pos rfl]
          omega
      · have hdecl2 : lineDeclares kw l.toList = false :=
          Bool.eq_false_iff.mpr hdecl
        rw [countMatches_fail_line kw hkw2 l.toList (buildText ls) hnl hok3
          hbl hdecl2 W hW true]
        have hih := ih hOkls [] (by simp)
        rw [List.nil_append] at hih
        rw [hih, List.countP_cons]
        rw [hdecl2]
        simp

end scanner

/-- C8 counterexample: the claim's per-line reading fails when the opening
parenthesis sits on the next line — RE2's `\s` matches newlines, so the
manifest with the two lines `go_test` and `(` yields one counted `go_test`
rule although no single line declares one. -/
theorem C8_counterexample :
    (scanner.parseBuildLines ["go_test", "("]).goTests = 1 ∧
    (["go_test", "("] : List String).countP
      (fun l => scanner.lineDeclares scanner.kwTest l.toList) = 0 := by
  decide

/-- C8 (amended): on manifests where no keyword is followed by only
whitespace up to the end of its line (so no `\s*\(` can spill onto the next
line) and no line holds an embedded newline, the rule counter counts exactly
the lines that, after leading whitespace, begin with the keyword followed by
an opening parenthesis, for each of `go_test`, `go_library`, `go_binary`. -/
theorem C8_rule_counts_per_line (lines : List String)
    (h : ∀ l ∈ lines, scanner.lineOk scanner.kwTest l.toList ∧
      scanner.lineOk scanner.kwLib l.toList ∧
      scanner.lineOk scanner.kwBin l.toList) :
    (scanner.parseBuildLines lines).goTests =
      lines.countP (fun l => scanner.lineDeclares scanner.kwTest l.toList) ∧
    (scanner.parseBuildLines lines).goLibs =
      lines.countP (fun l => scanner.lineDeclares scanner.kwLib l.toList) ∧
    (scanner.parseBuildLines lines).goBins =
      lines.countP (fun l => scanner.lineDeclares scanner.kwBin l.toList) := by
  refine ⟨?_, ?_, ?_⟩
  · show scanner.countMatches scanner.kwTest (scanner.buildText lines) true
      = _
    have h2 := scanner.countMatches_buildText scanner.kwTest (by decide)
      (by decide) lines (fun l hl => (h l hl).1) [] (by simp)
    rw [List.nil_append] at h2
    exact h2
  · show scanner.countMatches scanner.kwLib (scanner.buildText lines) true
      = _
    have h2 := scanner.countMatches_buildText scanner.kwLib (by decide)
      (by decide) lines (fun l hl => (h l hl).2.1) [] (by simp)
    rw [List.nil_append] at h2
    exact h2
  · show scanner.countMatches scanner.kwBin (scanner.buildText lines) true
      = _
    have h2 := scanner.countMatches_buildText scanner.kwBin (by decide)
      (by decide) lines (fun l hl => (h l hl).2.2) [] (by simp)
    rw [List.nil_append] at h2
    exact h2

/-- The manifest of the claim's concrete scenario. -/
def scenarioLines : List String :=
  ["go_test(name = \"x\")", "go_library(name = \"y\")",
   "go_test(name = \"z\")"]

/-- C8 witness: the scenario manifest satisfies the line conditions, and the
rule counter yields test = 2, library = 1, binary = 0 on it. -/
theorem C8_witness :
    (∀ l ∈ scenarioLines, scanner.lineOk scanner.kwTest l.toList ∧
      scanner.lineOk scanner.kwLib l.toList ∧
      scanner.lineOk scanner.kwBin l.toList) ∧
    (scanner.parseBuildLines scenarioLines).goTests = 2 ∧
    (scanner.parseBuildLines scenarioLines).goLibs = 1 ∧
    (scanner.parseBuildLines scenarioLines).goBins = 0 := by
  have h := C8_rule_counts_per_line scenarioLines (by decide)
  refine ⟨by decide, ?_, ?_, ?_⟩
  · rw [h.1]
    decide
  · rw [h.2.1]
    decide
  · rw [h.2.2]
    decide
